import Mathlib

/-!
Verification of the Orby memory and context-retrieval engine.

This file gives a shallow embedding, in Lean 4, of the memory subsystem of
the Orby command-line assistant: the text chunker, the embedding fallback
similarity, the context-chunk store with hash deduplication
(orby/memory/context_manager.py), the SQLite-backed entry store
(orby/memory/memory_db.py), and the memory-system facade
(orby/memory/__init__.py).  Python strings are modelled as lists of
characters, SQLite tables as lists of row structures, timestamps as a
logical clock (datetime.now() is strictly increasing at microsecond
resolution), the md5 content hash as an injective function (identity on
contents), and float arithmetic as real arithmetic.  Each operation is a
pure function from state to result and new state.
-/

/-- Python strings are modelled as lists of characters. -/
abbrev Str := List Char

/-! ## ContextManager.chunk_text (context_manager.py lines 192-211)

The source loop is:
    while start < len(text):
        end = start + chunk_size
        chunk = text[start:end]
        chunks.append(chunk)
        if end >= len(text): break
        start = end - overlap
The loop does not terminate for every parameter choice (it loops forever
when overlap >= chunk_size and the text is long), so the embedding uses a
fuel parameter and returns none when the fuel is exhausted: termination of
the source loop is exactly the assertion that adequate fuel is never
exhausted. -/
def chunkTextAux (text : Str) (chunkSize overlap : Nat) :
    Nat → Nat → Option (List Str)
  | 0, _ => none
  | fuel + 1, start =>
    if start < text.length then
      let chunk := (text.drop start).take chunkSize
      if text.length ≤ start + chunkSize then
        some [chunk]
      else
        match chunkTextAux text chunkSize overlap fuel (start + chunkSize - overlap) with
        | none => none
        | some rest => some (chunk :: rest)
    else
      some []

/-- `ContextManager.chunk_text`: a text no longer than `chunkSize` is
returned whole; otherwise the sliding-window loop runs (with fuel
`text.length + 1`, which suffices whenever `overlap < chunkSize`). -/
def chunk_text (text : Str) (chunkSize overlap : Nat) : Option (List Str) :=
  if text.length ≤ chunkSize then some [text]
  else chunkTextAux text chunkSize overlap (text.length + 1) 0

/-- Reassembly of a chunk list: the first chunk whole, every later chunk
with its first `overlap` characters removed. -/
def dropJoin (overlap : Nat) : List Str → Str
  | [] => []
  | c :: rest => c ++ (rest.map (List.drop overlap)).flatten

/-- Reassembly of the non-head chunks only. -/
def tailJoin (overlap : Nat) (chunks : List Str) : Str :=
  (chunks.map (List.drop overlap)).flatten

/-! ## EmbeddingManager._simple_similarity (context_manager.py lines 90-107)

Python float arithmetic is modelled by real arithmetic (the spec itself
states the 1.0 result only "within floating tolerance"); `x ** 0.5` on a
non-negative float is square root.  The source returns 0.0 when the two
vectors have different lengths, computes the dot product over `zip`, the
two magnitudes as square roots of sums of squares, returns 0.0 when either
magnitude is zero, and otherwise the quotient. -/

/-- `sum(a * b for a, b in zip(text1, text2))`. -/
def dotProd (v w : List ℝ) : ℝ :=
  ((v.zip w).map (fun p => p.1 * p.2)).sum

/-- `sum(a * a for a in v)`. -/
def sumSq (v : List ℝ) : ℝ :=
  (v.map (fun a => a * a)).sum

/-- `EmbeddingManager._simple_similarity`. -/
noncomputable def simple_similarity (v w : List ℝ) : ℝ :=
  if v.length ≠ w.length then 0
  else
    let dp := dotProd v w
    let m1 := Real.sqrt (sumSq v)
    let m2 := Real.sqrt (sumSq w)
    if m1 = 0 ∨ m2 = 0 then 0
    else dp / (m1 * m2)

/-! ## Shared string and list machinery

SQL `LIKE` patterns (`%` matches any sequence, `_` matches any single
character), Python's substring test `a in b`, Python's
`str.split(sep, maxsplit)`, and the stable descending sorts used to model
`ORDER BY ... DESC` and Python's stable `list.sort(reverse=True)`. -/

/-- SQL LIKE pattern matching: `%` matches any sequence of characters and
`_` matches exactly one character. -/
def likeMatch : List Char → List Char → Bool
  | [], t => t.isEmpty
  | p :: ps, t =>
    if p = '%' then
      t.tails.any (fun s => likeMatch ps s)
    else
      match t with
      | [] => false
      | c :: ts =>
        if p = '_' then likeMatch ps ts
        else (p = c : Bool) && likeMatch ps ts

/-- Python's substring test `needle in hay`. -/
def containsSubstr (needle : List Char) : List Char → Bool
  | [] => needle.isEmpty
  | c :: t => needle.isPrefixOf (c :: t) || containsSubstr needle t

/-- Split a list at the first occurrence of `c`, when there is one. -/
def splitFirst (c : Char) : List Char → Option (List Char × List Char)
  | [] => none
  | x :: xs =>
    if x = c then some ([], xs)
    else (splitFirst c xs).map (fun p => (x :: p.1, p.2))

/-- Python's `s.split(c, maxsplit)` for a one-character separator. -/
def splitLimit (c : Char) : Nat → List Char → List (List Char)
  | 0, s => [s]
  | n + 1, s =>
    match splitFirst c s with
    | none => [s]
    | some (a, b) => a :: splitLimit c n b

/-- Descending lexicographic comparison on a `(importance, timestamp)` key:
`a` may come before `b`.  Models both SQL
`ORDER BY importance DESC, created_at DESC` and Python's stable
`sort(key=(importance, timestamp), reverse=True)`. -/
def lexDesc {α : Type} (f : α → ℚ × Nat) (a b : α) : Prop :=
  (f b).1 < (f a).1 ∨ ((f b).1 = (f a).1 ∧ (f b).2 ≤ (f a).2)

/-- Descending comparison on a rational key (SQL `ORDER BY importance DESC`,
Python `sort(key=similarity, reverse=True)`). -/
def ratDesc {α : Type} (f : α → ℚ) (a b : α) : Prop :=
  f b ≤ f a

/-- Descending comparison on a timestamp key (SQL `ORDER BY created_at DESC`). -/
def natDesc {α : Type} (f : α → Nat) (a b : α) : Prop :=
  f b ≤ f a

instance {α : Type} (f : α → ℚ × Nat) : DecidableRel (lexDesc f) := by
  intro a b
  unfold lexDesc
  infer_instance

instance {α : Type} (f : α → ℚ) : DecidableRel (ratDesc f) := by
  intro a b
  unfold ratDesc
  infer_instance

instance {α : Type} (f : α → Nat) : DecidableRel (natDesc f) := by
  intro a b
  unfold natDesc
  infer_instance

instance {α : Type} (f : α → ℚ × Nat) : IsTotal α (lexDesc f) := by
  constructor
  intro a b
  unfold lexDesc
  rcases lt_trichotomy (f a).1 (f b).1 with h | h | h
  · exact Or.inr (Or.inl h)
  · rcases Nat.le_total (f b).2 (f a).2 with h2 | h2
    · exact Or.inl (Or.inr ⟨h.symm, h2⟩)
    · exact Or.inr (Or.inr ⟨h, h2⟩)
  · exact Or.inl (Or.inl h)

instance {α : Type} (f : α → ℚ × Nat) : IsTrans α (lexDesc f) := by
  constructor
  intro a b c hab hbc
  unfold lexDesc at hab hbc ⊢
  rcases hab with h1 | ⟨h1, h1'⟩ <;> rcases hbc with h2 | ⟨h2, h2'⟩
  · exact Or.inl (h2.trans h1)
  · exact Or.inl (lt_of_le_of_lt h2.le h1)
  · exact Or.inl (lt_of_lt_of_le h2 h1.le)
  · exact Or.inr ⟨h2.trans h1, h2'.trans h1'⟩

instance {α : Type} (f : α → ℚ) : IsTotal α (ratDesc f) := by
  constructor
  intro a b
  unfold ratDesc
  rcases le_total (f b) (f a) with h | h
  · exact Or.inl h
  · exact Or.inr h

instance {α : Type} (f : α → ℚ) : IsTrans α (ratDesc f) := by
  constructor
  intro a b c hab hbc
  exact hbc.trans hab

instance {α : Type} (f : α → Nat) : IsTotal α (natDesc f) := by
  constructor
  intro a b
  rcases Nat.le_total (f b) (f a) with h | h
  · exact Or.inl h
  · exact Or.inr h

instance {α : Type} (f : α → Nat) : IsTrans α (natDesc f) := by
  constructor
  intro a b c hab hbc
  exact hbc.trans hab

/-! ## ContextManager chunk store (context_manager.py lines 110-334)

The `context_chunks` table (schema lines 133-147) is a list of rows; the
`embedding_hash TEXT UNIQUE` column is the table-wide uniqueness key.  The
md5 content hash is modelled as an injective function on contents
(identity), so hash equality is content equality.  Embedding availability
is environment-dependent (optional ML libraries), so the embedding
function and the similarity score are parameters of the embedding. -/

/-- The embedding environment: `EmbeddingManager.embed_text` (returns none
when the libraries are unavailable or encoding fails) and
`EmbeddingManager.compute_similarity`. -/
structure EmbEnv where
  embed : Str → Option (List ℚ)
  sim : List ℚ → List ℚ → ℚ

/-- One row of the `context_chunks` table. -/
structure ChunkRow where
  id : Nat
  session_id : Str
  content : Str
  content_type : Str
  importance : ℚ
  created_at : Nat
  updated_at : Nat
  tags : List Str
  metadata : Str
  embedding : Option (List ℚ)
  embedding_hash : Str
deriving DecidableEq

/-- The context-manager store: table rows, the AUTOINCREMENT counter, and
the logical clock supplying `datetime.now()` timestamps. -/
structure CtxState where
  rows : List ChunkRow
  nextId : Nat
  clock : Nat
deriving DecidableEq

/-- `ContextManager._hash_content`: md5 is modelled as an injective
function on contents, i.e. the identity, so that hash equality coincides
with content equality. -/
def hash_content (content : Str) : Str := content

/-- `self._serialize_embedding(embedding) if embedding else None`: Python
truthiness stores NULL for both a missing and an empty embedding. -/
def storeEmbedding : Option (List ℚ) → Option (List ℚ)
  | none => none
  | some l => if l = [] then none else some l

/-- `chunk_text` as called by `add_content`, with the default parameters
chunk_size=500, overlap=50 (the default is never taken: 50 < 500). -/
def chunkTextDefault (content : Str) : List Str :=
  (chunk_text content 500 50).getD [content]

/-- The row INSERTed by `add_content` for one chunk. -/
def newChunkRow (env : EmbEnv) (sid ctype : Str) (imp : ℚ) (tags : List Str)
    (md : Str) (st : CtxState) (chunk : Str) : ChunkRow :=
  { id := st.nextId, session_id := sid, content := chunk,
    content_type := ctype, importance := imp, created_at := st.clock,
    updated_at := st.clock, tags := tags, metadata := md,
    embedding := storeEmbedding (env.embed chunk),
    embedding_hash := hash_content chunk }

/-- One iteration of the `add_content` insert loop: compute the content
hash, attempt the INSERT, and skip silently on a UNIQUE violation of
`embedding_hash` (sqlite3.IntegrityError). -/
def addChunk (env : EmbEnv) (sid ctype : Str) (imp : ℚ) (tags : List Str)
    (md : Str) (st : CtxState) (chunk : Str) : Option Nat × CtxState :=
  if st.rows.any (fun r => (r.embedding_hash = hash_content chunk : Bool)) then
    (none, st)
  else
    (some st.nextId,
     { rows := st.rows ++ [newChunkRow env sid ctype imp tags md st chunk],
       nextId := st.nextId + 1,
       clock := st.clock + 1 })

/-- The loop body of `add_content`, accumulating the returned chunk ids. -/
def addChunkStep (env : EmbEnv) (sid ctype : Str) (imp : ℚ) (tags : List Str)
    (md : Str) (acc : List Nat × CtxState) (chunk : Str) : List Nat × CtxState :=
  match addChunk env sid ctype imp tags md acc.2 chunk with
  | (none, st') => (acc.1, st')
  | (some i, st') => (acc.1 ++ [i], st')

/-- `ContextManager.add_content` (lines 213-254): chunk the content, then
insert each chunk, skipping chunks whose hash already exists. -/
def add_content (env : EmbEnv) (st : CtxState) (sid content ctype : Str)
    (imp : ℚ) (tags : List Str) (md : Str) : List Nat × CtxState :=
  (chunkTextDefault content).foldl (addChunkStep env sid ctype imp tags md) ([], st)

/-- `ContextManager._keyword_search` (lines 306-333): session-scoped
case-insensitive LIKE match ordered by importance descending, LIMIT top_k. -/
def keyword_search (st : CtxState) (sid query : Str) (topK : Nat) :
    List ChunkRow :=
  let ql := query.map Char.toLower
  let pat := '%' :: (ql ++ ['%'])
  let matched := st.rows.filter
    (fun r => (r.session_id = sid : Bool) && likeMatch pat (r.content.map Char.toLower))
  (List.insertionSort (ratDesc (fun r : ChunkRow => r.importance)) matched).take topK

/-- `ContextManager.search_by_similarity` (lines 256-304): embed the query
(Python truthiness sends both a missing and an empty query embedding to
the keyword fallback), score the session's embedded rows, keep scores of
at least min_similarity, sort descending, truncate to top_k. -/
def search_by_similarity (env : EmbEnv) (st : CtxState) (sid query : Str)
    (topK : Nat) (minSim : ℚ) : List ChunkRow :=
  match env.embed query with
  | none => keyword_search st sid query topK
  | some qe =>
    if qe = [] then keyword_search st sid query topK
    else
      let cands := st.rows.filter
        (fun r => (r.session_id = sid : Bool) && r.embedding.isSome)
      let scored := cands.filterMap (fun r =>
        match r.embedding with
        | none => none
        | some emb =>
          if minSim ≤ env.sim qe emb then some (r, env.sim qe emb) else none)
      ((List.insertionSort (ratDesc (fun p : ChunkRow × ℚ => p.2)) scored).take
        topK).map (fun p => p.1)

/-- The freshly initialized context store. -/
def emptyCtx : CtxState :=
  { rows := [], nextId := 1, clock := 0 }

/-! ## MemoryDatabase (memory_db.py)

The two tables relevant to the claims — `sessions` (PRIMARY KEY
session_id) and `memory_entries` (AUTOINCREMENT id) — plus the
`memory_chunks` side table written for contents over 1000 characters.
Timestamps are a per-store logical clock: `datetime.now()` at microsecond
resolution is strictly increasing, and ISO-8601 strings compare
chronologically. -/

/-- One row of the `sessions` table. -/
structure SessionRow where
  session_id : Str
  project_path : Str
  created_at : Nat
  updated_at : Nat
  metadata : Str
deriving DecidableEq

/-- One row of the `memory_entries` table. -/
structure EntryRow where
  id : Nat
  session_id : Str
  content : Str
  content_type : Str
  importance : ℚ
  created_at : Nat
  updated_at : Nat
  tags : List Str
  metadata : Str
deriving DecidableEq

/-- One row of the `memory_chunks` table. -/
structure ChunkStoreRow where
  id : Nat
  entry_id : Nat
  chunk_index : Nat
  content : Str
  created_at : Nat
deriving DecidableEq

/-- The MemoryDatabase store. -/
structure DbState where
  sessions : List SessionRow
  entries : List EntryRow
  memory_chunks : List ChunkStoreRow
  nextEntryId : Nat
  nextChunkId : Nat
  clock : Nat
deriving DecidableEq

/-- `str(Path.cwd())` used when a session is auto-created. -/
def cwdPath : Str := "/".data

/-- `MemoryDatabase.session_exists` (lines 121-128). -/
def session_exists (db : DbState) (sid : Str) : Bool :=
  db.sessions.any (fun s => (s.session_id = sid : Bool))

/-- `MemoryDatabase.create_session` (lines 103-119): INSERT the session
row; a primary-key violation (session already present) returns false. -/
def create_session (db : DbState) (sid ppath md : Str) : Bool × DbState :=
  if session_exists db sid then
    (false, db)
  else
    (true,
     { db with
       sessions := db.sessions ++
         [{ session_id := sid, project_path := ppath, created_at := db.clock,
            updated_at := db.clock, metadata := md }],
       clock := db.clock + 1 })

/-- `MemoryDatabase._chunk_and_store_content` (lines 161-172):
`for i in range(0, len(content), 500)` stores 500-character slices. -/
def chunk_and_store_content (db : DbState) (eid : Nat) (content : Str) : DbState :=
  (List.range ((content.length + 499) / 500)).foldl
    (fun d k =>
      { d with
        memory_chunks := d.memory_chunks ++
          [{ id := d.nextChunkId, entry_id := eid, chunk_index := k,
             content := (content.drop (k * 500)).take 500,
             created_at := d.clock }],
        nextChunkId := d.nextChunkId + 1,
        clock := d.clock + 1 })
    db

/-- `MemoryDatabase.add_memory_entry` (lines 130-159): auto-create the
session when absent, INSERT the entry row, and additionally store
500-character sub-chunks when the content exceeds 1000 characters. -/
def add_memory_entry (db : DbState) (sid content ctype : Str) (imp : ℚ)
    (tags : List Str) (md : Str) : Nat × DbState :=
  let db0 := if session_exists db sid then db else (create_session db sid cwdPath "".data).2
  let eid := db0.nextEntryId
  let db1 : DbState :=
    { db0 with
      entries := db0.entries ++
        [{ id := eid, session_id := sid, content := content,
           content_type := ctype, importance := imp, created_at := db0.clock,
           updated_at := db0.clock, tags := tags, metadata := md }],
      nextEntryId := eid + 1,
      clock := db0.clock + 1 }
  let db2 := if 1000 < content.length then chunk_and_store_content db1 eid content else db1
  (eid, db2)

/-- The `ORDER BY importance DESC, created_at DESC` key of an entry row. -/
def entryKey (e : EntryRow) : ℚ × Nat := (e.importance, e.created_at)

/-- `MemoryDatabase.get_memory_entries` (lines 174-185). -/
def get_memory_entries (db : DbState) (sid : Str) (limit offst : Nat) :
    List EntryRow :=
  (((List.insertionSort (lexDesc entryKey)
      (db.entries.filter (fun e => (e.session_id = sid : Bool)))).drop offst).take limit)

/-- `MemoryDatabase.search_memory` (lines 187-208): case-insensitive LIKE
over content or metadata, optional content-type filter, ranked ordering. -/
def search_memory (db : DbState) (sid query : Str) (ctype : Option Str)
    (limit : Nat) : List EntryRow :=
  let ql := query.map Char.toLower
  let pat := '%' :: (ql ++ ['%'])
  let base := db.entries.filter (fun e =>
    (e.session_id = sid : Bool) &&
    (likeMatch pat (e.content.map Char.toLower) ||
     likeMatch pat (e.metadata.map Char.toLower)))
  let typed := match ctype with
    | none => base
    | some t => base.filter (fun e => (e.content_type = t : Bool))
  (List.insertionSort (lexDesc entryKey) typed).take limit

/-- `MemoryDatabase.delete_session_memory` (lines 232-236). -/
def delete_session_memory (db : DbState) (sid : Str) : Bool × DbState :=
  (db.entries.any (fun e => (e.session_id = sid : Bool)),
   { db with entries := db.entries.filter (fun e => !(e.session_id = sid : Bool)) })

/-! ## EnhancedMemorySystem facade (memory/__init__.py) -/

/-- The `MemoryEntry` dataclass (lines 14-23); `metadata` is carried as its
serialized form. -/
structure MemoryEntry where
  content : Str
  timestamp : Nat
  content_type : Str
  tags : List Str
  importance : ℚ
  metadata : Str
  entry_id : Option Nat
deriving DecidableEq

/-- `self.session_memory_limit = 100` (line 39). -/
def session_memory_limit : Nat := 100

/-- The facade state: the current session, the memory-enabled flag, the
ephemeral buffer, and the two stores. -/
structure SysState where
  session_id : Str
  project_path : Str
  memoryEnabled : Bool
  sessionMemory : List MemoryEntry
  db : DbState
  ctx : CtxState
deriving DecidableEq

/-- `EnhancedMemorySystem.add_to_session_memory` (lines 58-109): when
memory is disabled return the sentinel -1 and do nothing; otherwise insert
the entry at the head of the ephemeral buffer, truncate the buffer to its
capacity, persist the entry, and index it in the context manager (the
entry object receives the database id). -/
def add_to_session_memory (env : EmbEnv) (st : SysState) (content ctype : Str)
    (tags : List Str) (imp : ℚ) (md : Str) : Int × SysState :=
  if st.memoryEnabled = false then
    (-1, st)
  else
    let eid := (add_memory_entry st.db st.session_id content ctype imp tags md).1
    let db' := (add_memory_entry st.db st.session_id content ctype imp tags md).2
    let entry : MemoryEntry :=
      { content := content, timestamp := st.db.clock, content_type := ctype,
        tags := tags, importance := imp, metadata := md, entry_id := some eid }
    let buf0 := entry :: st.sessionMemory
    let buf := if session_memory_limit < buf0.length
      then buf0.take session_memory_limit else buf0
    let ctx' := (add_content env st.ctx st.session_id content ctype imp tags md).2
    (Int.ofNat eid, { st with sessionMemory := buf, db := db', ctx := ctx' })

/-- The freshly initialized MemoryDatabase. -/
def emptyDb : DbState :=
  { sessions := [], entries := [], memory_chunks := [], nextEntryId := 1,
    nextChunkId := 1, clock := 0 }

/-- An embedding environment with no available embedding backend. -/
def envNone : EmbEnv := ⟨fun _ => none, fun _ _ => 0⟩

/-- A concrete memory-enabled facade state with an empty buffer. -/
def stEnabled : SysState :=
  { session_id := "s".data, project_path := "/".data, memoryEnabled := true,
    sessionMemory := [], db := emptyDb, ctx := emptyCtx }

/-- A concrete facade state with memory disabled. -/
def stDisabled : SysState :=
  { session_id := "s".data, project_path := "/".data, memoryEnabled := false,
    sessionMemory := [], db := emptyDb, ctx := emptyCtx }

/-- `add_to_session_memory` iterated over a list of inputs. -/
structure AddArgs where
  content : Str
  ctype : Str
  tags : List Str
  imp : ℚ
  md : Str
deriving DecidableEq

def foldAddMemory (env : EmbEnv) (st : SysState) (args : List AddArgs) : SysState :=
  args.foldl (fun s a =>
    (add_to_session_memory env s a.content a.ctype a.tags a.imp a.md).2) st

/-- Conversion of a retrieved context chunk to a MemoryEntry
(search_session_memory lines 135-145). -/
def chunkToEntry (r : ChunkRow) : MemoryEntry :=
  { content := r.content, timestamp := r.created_at,
    content_type := r.content_type, tags := r.tags,
    importance := r.importance, metadata := r.metadata,
    entry_id := some r.id }

/-- Conversion of a persistent row to a MemoryEntry (lines 158-169). -/
def rowToEntry (e : EntryRow) : MemoryEntry :=
  { content := e.content, timestamp := e.created_at,
    content_type := e.content_type, tags := e.tags,
    importance := e.importance, metadata := e.metadata,
    entry_id := some e.id }

/-- The `(importance, timestamp)` sort key of merged search results. -/
def entrySortKey (e : MemoryEntry) : ℚ × Nat := (e.importance, e.timestamp)

/-- The duplicate-removal loop of search_session_memory (lines 174-181):
one pass, keeping the first entry for each content hash. -/
def dedupByContent : List MemoryEntry → List Str → List MemoryEntry
  | [], _ => []
  | e :: rest, seen =>
    if hash_content e.content ∈ seen then
      dedupByContent rest seen
    else
      e :: dedupByContent rest (hash_content e.content :: seen)

/-- The `ephemeral_results` list of search_session_memory (lines 120-123):
buffer entries whose lowercased content contains the lowercased query. -/
def ephemeral_results (st : SysState) (query : Str) : List MemoryEntry :=
  st.sessionMemory.filter
    (fun e => containsSubstr (query.map Char.toLower) (e.content.map Char.toLower))

/-- The `context_entries` list (lines 126-148). -/
def context_entries (env : EmbEnv) (st : SysState) (query : Str)
    (maxResults : Nat) : List MemoryEntry :=
  (search_by_similarity env st.ctx st.session_id query maxResults (3 / 10)).map
    chunkToEntry

/-- The `persistent_entries` list (lines 150-169). -/
def persistent_entries (st : SysState) (query : Str) (ctype : Option Str)
    (maxResults : Nat) : List MemoryEntry :=
  (search_memory st.db st.session_id query ctype maxResults).map rowToEntry

/-- The `all_results` merge (line 172): context results first, then
ephemeral, then persistent. -/
def all_results (env : EmbEnv) (st : SysState) (query : Str)
    (ctype : Option Str) (maxResults : Nat) : List MemoryEntry :=
  context_entries env st query maxResults ++ ephemeral_results st query ++
    persistent_entries st query ctype maxResults

/-- `EnhancedMemorySystem.search_session_memory` (lines 111-186): merge
context-manager similarity results, ephemeral substring matches and
persistent substring matches (in that priority order), deduplicate by
content hash keeping the first occurrence, sort by (importance, timestamp)
descending with Python's stable sort, and truncate to max_results. -/
def search_session_memory (env : EmbEnv) (st : SysState) (query : Str)
    (ctype : Option Str) (maxResults : Nat) : List MemoryEntry :=
  if st.memoryEnabled = false then []
  else
    (List.insertionSort (lexDesc entrySortKey)
      (dedupByContent (all_results env st query ctype maxResults) [])).take
      maxResults

/-! ## Session snapshots (memory/__init__.py lines 244-347)

`save_session_memory` copies the current session's entries into a fresh
backup session named `saved_<name>_<timestamp>`; `load_session_memory`
finds the newest session LIKE `saved_<name>_%`, clears current memory and
re-adds the backup's entries; `get_available_sessions` lists the human
names recovered by `session_id.split('_', 2)[1]`.  The timestamp inside
the session id is the decimal logical clock. -/

def savedTag : Str := "saved_".data

/-- `json.dumps({})`. -/
def emptyJsonObject : Str := "\x7b\x7d".data

/-- `ContextManager.delete_session_content` (lines 367-374). -/
def delete_session_content (ctx : CtxState) (sid : Str) : Bool × CtxState :=
  (ctx.rows.any (fun r => (r.session_id = sid : Bool)),
   { ctx with rows := ctx.rows.filter (fun r => !(r.session_id = sid : Bool)) })

/-- `EnhancedMemorySystem.clear_session_memory` (lines 224-226). -/
def clear_session_memory (st : SysState) : SysState :=
  { st with sessionMemory := [] }

/-- `EnhancedMemorySystem.clear_persistent_memory` (lines 228-237). -/
def clear_persistent_memory (st : SysState) : SysState :=
  { st with
    db := (delete_session_memory st.db st.session_id).2,
    ctx := (delete_session_content st.ctx st.session_id).2 }

/-- `EnhancedMemorySystem.clear_all_memory` (lines 239-242). -/
def clear_all_memory (st : SysState) : SysState :=
  clear_persistent_memory (clear_session_memory st)

/-- The backup session id minted by `save_session_memory`:
`saved_<name>_<timestamp>`. -/
def backupSessionId (st : SysState) (name : Str) : Str :=
  savedTag ++ name ++ '_' :: (Nat.repr st.db.clock).data

/-- `EnhancedMemorySystem.save_session_memory` (lines 244-274): create the
backup session, copy the current session's entries (limit 10000) into it. -/
def save_session_memory (st : SysState) (name : Str) : Bool × SysState :=
  let backupId := backupSessionId st name
  let db1 := (create_session st.db backupId st.project_path emptyJsonObject).2
  let current := get_memory_entries db1 st.session_id 10000 0
  let db2 := current.foldl
    (fun d e => (add_memory_entry d backupId e.content e.content_type
      e.importance e.tags e.metadata).2) db1
  (true, { st with db := db2 })

/-- The `SELECT session_id FROM sessions WHERE session_id LIKE
'saved_<name>_%' ORDER BY created_at DESC LIMIT 1` of
`load_session_memory` (lines 283-295). -/
def load_lookup (db : DbState) (name : Str) : Option SessionRow :=
  let pat := savedTag ++ name ++ '_' :: ['%']
  (List.insertionSort (natDesc SessionRow.created_at)
    (db.sessions.filter (fun s => likeMatch pat s.session_id))).head?

/-- `EnhancedMemorySystem.load_session_memory` (lines 276-314): find the
newest matching backup, clear all current memory, and re-add every backup
entry through add_to_session_memory. -/
def load_session_memory (env : EmbEnv) (st : SysState) (name : Str) :
    Bool × SysState :=
  match load_lookup st.db name with
  | none => (false, st)
  | some row =>
    let st1 := clear_all_memory st
    let backupEntries := get_memory_entries st1.db row.session_id 10000 0
    (true,
     backupEntries.foldl
       (fun s e => (add_to_session_memory env s e.content e.content_type
         e.tags e.importance e.metadata).2) st1)

/-- Name recovery of `get_available_sessions` (lines 334-343):
`session_id.split('_', 2)[1]` when the id starts with `saved_` and the
split yields at least two parts. -/
def extractSavedName (sid : Str) : Option Str :=
  if savedTag.isPrefixOf sid then
    match splitLimit '_' 2 sid with
    | _ :: nm :: _ => some nm
    | _ => none
  else none

/-- `EnhancedMemorySystem.get_available_sessions` (lines 316-347). -/
def get_available_sessions (st : SysState) : List Str :=
  let rows := List.insertionSort (natDesc SessionRow.created_at)
    (st.db.sessions.filter (fun s => likeMatch (savedTag ++ ['%']) s.session_id))
  rows.foldl
    (fun acc r =>
      match extractSavedName r.session_id with
      | some nm => if nm ∈ acc then acc else acc ++ [nm]
      | none => acc) []

/-- The session row created by `save_session_memory`. -/
def savedSessionRow (st : SysState) (name : Str) : SessionRow :=
  { session_id := backupSessionId st name, project_path := st.project_path,
    created_at := st.db.clock, updated_at := st.db.clock,
    metadata := emptyJsonObject }

/-- The database right after `save_session_memory` creates its backup
session. -/
def dbAfterBackup (st : SysState) (name : Str) : DbState :=
  { st.db with
    sessions := st.db.sessions ++ [savedSessionRow st name],
    clock := st.db.clock + 1 }

/-- A concrete enabled facade state whose session row exists and which
holds one persisted entry. -/
def stSession : SysState :=
  { session_id := "s".data, project_path := "/".data, memoryEnabled := true,
    sessionMemory := [],
    db := { sessions := [{ session_id := "s".data, project_path := "/".data,
                           created_at := 0, updated_at := 0,
                           metadata := emptyJsonObject }],
            entries := [{ id := 1, session_id := "s".data, content := "m".data,
                          content_type := "text".data, importance := 1,
                          created_at := 0, updated_at := 0, tags := [],
                          metadata := emptyJsonObject }],
            memory_chunks := [], nextEntryId := 2, nextChunkId := 1, clock := 1 },
    ctx := emptyCtx }

/-! ## Theorems -/

theorem tailJoin_cons (overlap : Nat) (c : Str) (rest : List Str) :
    tailJoin overlap (c :: rest) = c.drop overlap ++ tailJoin overlap rest := by
  simp [tailJoin]

theorem dropJoin_cons (overlap : Nat) (c : Str) (rest : List Str) :
    dropJoin overlap (c :: rest) = c ++ tailJoin overlap rest := by
  simp [dropJoin, tailJoin]

/-- With `overlap < chunkSize`, fuel exceeding the remaining text length is
never exhausted. -/
theorem chunkTextAux_isSome (text : Str) (chunkSize overlap : Nat)
    (h : overlap < chunkSize) :
    ∀ fuel start, text.length - start < fuel →
      (chunkTextAux text chunkSize overlap fuel start).isSome := by
  intro fuel
  induction fuel with
  | zero => intro start hs; omega
  | succ f ih =>
    intro start hs
    by_cases hlt : start < text.length
    · by_cases hend : text.length ≤ start + chunkSize
      · simp [chunkTextAux, hlt, hend]
      · have hrec : (chunkTextAux text chunkSize overlap f
            (start + chunkSize - overlap)).isSome := by
          apply ih
          omega
        rcases Option.isSome_iff_exists.mp hrec with ⟨r, hr⟩
        simp [chunkTextAux, hlt, hend, hr]
    · simp [chunkTextAux, hlt]

/-- Every chunk produced by the loop has length at most `chunkSize`. -/
theorem chunkTextAux_length_le (text : Str) (chunkSize overlap : Nat) :
    ∀ fuel start r, chunkTextAux text chunkSize overlap fuel start = some r →
      ∀ c ∈ r, c.length ≤ chunkSize := by
  intro fuel
  induction fuel with
  | zero => intro start r hr; simp [chunkTextAux] at hr
  | succ f ih =>
    intro start r hr c hc
    by_cases hlt : start < text.length
    · by_cases hend : text.length ≤ start + chunkSize
      · simp [chunkTextAux, hlt, hend] at hr
        subst hr
        simp at hc
        subst hc
        simp
      · cases hrec : chunkTextAux text chunkSize overlap f (start + chunkSize - overlap) with
        | none => simp [chunkTextAux, hlt, hend, hrec] at hr
        | some rest =>
          simp [chunkTextAux, hlt, hend, hrec] at hr
          subst hr
          rcases List.mem_cons.mp hc with hc | hc
          · subst hc
            simp
          · exact ih (start + chunkSize - overlap) rest hrec c hc
    · simp [chunkTextAux, hlt] at hr
      subst hr
      simp at hc

/-- Reassembling the non-head chunks (each with its first `overlap`
characters dropped) recovers the text from position `start + overlap` on. -/
theorem chunkTextAux_tailJoin (text : Str) (chunkSize overlap : Nat)
    (h : overlap < chunkSize) :
    ∀ fuel start r, start < text.length →
      chunkTextAux text chunkSize overlap fuel start = some r →
      tailJoin overlap r = text.drop (start + overlap) := by
  intro fuel
  induction fuel with
  | zero => intro start r _ hr; simp [chunkTextAux] at hr
  | succ f ih =>
    intro start r hlt hr
    by_cases hend : text.length ≤ start + chunkSize
    · simp [chunkTextAux, hlt, hend] at hr
      subst hr
      have hall : (text.drop start).take chunkSize = text.drop start := by
        apply List.take_of_length_le
        simp
        omega
      rw [tailJoin_cons, hall]
      simp [tailJoin, List.drop_drop, Nat.add_comm]
    · cases hrec : chunkTextAux text chunkSize overlap f (start + chunkSize - overlap) with
      | none => simp [chunkTextAux, hlt, hend, hrec] at hr
      | some rest =>
        simp [chunkTextAux, hlt, hend, hrec] at hr
        subst hr
        have hlt' : start + chunkSize - overlap < text.length := by omega
        have htail : tailJoin overlap rest =
            text.drop (start + chunkSize - overlap + overlap) :=
          ih (start + chunkSize - overlap) rest hlt' hrec
        rw [tailJoin_cons, htail]
        have harith : start + chunkSize - overlap + overlap = start + chunkSize := by omega
        rw [harith]
        have hdrop : ((text.drop start).take chunkSize).drop overlap =
            (text.drop (start + overlap)).take (chunkSize - overlap) := by
          rw [List.drop_take, List.drop_drop]
        rw [hdrop]
        have hsplit : text.drop (start + chunkSize) =
            (text.drop (start + overlap)).drop (chunkSize - overlap) := by
          rw [List.drop_drop]
          congr 1
          omega
        rw [hsplit]
        exact List.take_append_drop _ _

/-- Reassembling the loop's output (head whole, later chunks with their
first `overlap` characters dropped) recovers the text from `start` on. -/
theorem chunkTextAux_dropJoin (text : Str) (chunkSize overlap : Nat)
    (h : overlap < chunkSize) :
    ∀ fuel start r, start < text.length →
      chunkTextAux text chunkSize overlap fuel start = some r →
      dropJoin overlap r = text.drop start := by
  intro fuel start r hlt hr
  cases fuel with
  | zero => simp [chunkTextAux] at hr
  | succ f =>
    by_cases hend : text.length ≤ start + chunkSize
    · simp [chunkTextAux, hlt, hend] at hr
      subst hr
      have hall : (text.drop start).take chunkSize = text.drop start := by
        apply List.take_of_length_le
        simp
        omega
      simp [dropJoin, hall]
    · cases hrec : chunkTextAux text chunkSize overlap f (start + chunkSize - overlap) with
      | none => simp [chunkTextAux, hlt, hend, hrec] at hr
      | some rest =>
        simp [chunkTextAux, hlt, hend, hrec] at hr
        subst hr
        have hlt' : start + chunkSize - overlap < text.length := by omega
        have htail : tailJoin overlap rest = text.drop (start + chunkSize) := by
          have := chunkTextAux_tailJoin text chunkSize overlap h f
            (start + chunkSize - overlap) rest hlt' hrec
          rw [this]
          congr 1
          omega
        rw [dropJoin_cons, htail]
        have hsplit : text.drop (start + chunkSize) =
            (text.drop start).drop chunkSize := by
          rw [List.drop_drop]
        rw [hsplit]
        exact List.take_append_drop _ _

/-- C1: for every text T and every pair (chunk_size, overlap) with
0 <= overlap < chunk_size, chunk_text returns chunks that exactly
reconstruct T when concatenated with the overlapping regions removed
(first chunk whole, each later chunk with its first `overlap` characters
dropped), no returned chunk exceeds chunk_size characters, and any T with
len(T) <= chunk_size yields exactly the one chunk [T]. -/
theorem chunk_text_spec (text : Str) (chunkSize overlap : Nat)
    (h : overlap < chunkSize) :
    ∃ chunks, chunk_text text chunkSize overlap = some chunks ∧
      dropJoin overlap chunks = text ∧
      (∀ c ∈ chunks, c.length ≤ chunkSize) ∧
      (text.length ≤ chunkSize → chunks = [text]) := by
  by_cases hle : text.length ≤ chunkSize
  · refine ⟨[text], by simp [chunk_text, hle], by simp [dropJoin], ?_, fun _ => rfl⟩
    intro c hc
    simp at hc
    subst hc
    exact hle
  · have h0 : 0 < text.length := by omega
    obtain ⟨r, hr⟩ := Option.isSome_iff_exists.mp
      (chunkTextAux_isSome text chunkSize overlap h (text.length + 1) 0 (by omega))
    refine ⟨r, by simp [chunk_text, hle, hr], ?_, ?_, ?_⟩
    · have hd := chunkTextAux_dropJoin text chunkSize overlap h (text.length + 1) 0 r h0 hr
      simpa using hd
    · exact chunkTextAux_length_le text chunkSize overlap (text.length + 1) 0 r hr
    · intro hcon
      omega

theorem chunk_text_spec_witness :
    (1 < 3) ∧
    ∃ chunks, chunk_text "abcdef".data 3 1 = some chunks ∧
      dropJoin 1 chunks = "abcdef".data ∧
      (∀ c ∈ chunks, c.length ≤ 3) ∧
      ("abcdef".data.length ≤ 3 → chunks = ["abcdef".data]) :=
  ⟨by decide, chunk_text_spec "abcdef".data 3 1 (by decide)⟩

/-- C9: chunk_text terminates for every input text whenever
overlap < chunk_size: with the adequate fuel bound the sliding-window loop
always reaches the end of the text, so the embedding returns a value
(rather than the fuel-exhaustion marker). -/
theorem chunk_text_terminates (text : Str) (chunkSize overlap : Nat)
    (h : overlap < chunkSize) :
    (chunk_text text chunkSize overlap).isSome := by
  by_cases hle : text.length ≤ chunkSize
  · simp [chunk_text, hle]
  · have := chunkTextAux_isSome text chunkSize overlap h (text.length + 1) 0 (by omega)
    simpa [chunk_text, hle] using this

theorem chunk_text_terminates_witness :
    (0 < 2) ∧ (chunk_text "hello".data 2 0).isSome :=
  ⟨by decide, chunk_text_terminates "hello".data 2 0 (by decide)⟩

theorem sumSq_nonneg (v : List ℝ) : 0 ≤ sumSq v := by
  induction v with
  | nil => simp [sumSq]
  | cons a t ih =>
    have : sumSq (a :: t) = a * a + sumSq t := by simp [sumSq]
    rw [this]
    nlinarith [mul_self_nonneg a]

theorem sumSq_eq_zero_iff (v : List ℝ) : sumSq v = 0 ↔ ∀ x ∈ v, x = 0 := by
  induction v with
  | nil => simp [sumSq]
  | cons a t ih =>
    have hcons : sumSq (a :: t) = a * a + sumSq t := by simp [sumSq]
    rw [hcons]
    constructor
    · intro h0 x hx
      have ha : a * a = 0 ∧ sumSq t = 0 := by
        constructor <;> nlinarith [mul_self_nonneg a, sumSq_nonneg t]
      rcases List.mem_cons.mp hx with hx | hx
      · subst hx
        exact mul_self_eq_zero.mp ha.1
      · exact ih.mp ha.2 x hx
    · intro hall
      have ha : a = 0 := hall a (by simp)
      have ht : sumSq t = 0 := ih.mpr (fun x hx => hall x (by simp [hx]))
      simp [ha, ht]

theorem dotProd_self (v : List ℝ) : dotProd v v = sumSq v := by
  induction v with
  | nil => simp [dotProd, sumSq]
  | cons a t ih => simp [dotProd, sumSq] at ih ⊢; linarith

/-- C7: the manual fallback cosine similarity returns 1.0 for two identical
non-zero vectors, 0.0 for (same-length) orthogonal vectors, 0.0 whenever
either vector has zero magnitude, and 0.0 when the two vectors are
malformed (different lengths). -/
theorem simple_similarity_spec :
    (∀ v : List ℝ, (∃ x ∈ v, x ≠ 0) → simple_similarity v v = 1) ∧
    (∀ v w : List ℝ, v.length = w.length → dotProd v w = 0 →
      simple_similarity v w = 0) ∧
    (∀ v w : List ℝ, sumSq v = 0 ∨ sumSq w = 0 → simple_similarity v w = 0) ∧
    (∀ v w : List ℝ, v.length ≠ w.length → simple_similarity v w = 0) := by
  refine ⟨?_, ?_, ?_, ?_⟩
  · intro v hx
    have hne : sumSq v ≠ 0 := by
      intro h0
      rcases hx with ⟨x, hxv, hx0⟩
      exact hx0 ((sumSq_eq_zero_iff v).mp h0 x hxv)
    have hpos : 0 < sumSq v := lt_of_le_of_ne (sumSq_nonneg v) (Ne.symm hne)
    have hs : Real.sqrt (sumSq v) ≠ 0 := by
      rw [Real.sqrt_ne_zero']
      exact hpos
    have hmul : Real.sqrt (sumSq v) * Real.sqrt (sumSq v) = sumSq v :=
      Real.mul_self_sqrt (sumSq_nonneg v)
    simp only [simple_similarity, ne_eq, not_true_eq_false, if_false, ite_not]
    simp [hs, dotProd_self, hmul, div_self hne]
  · intro v w hlen hdot
    simp only [simple_similarity, hlen]
    simp [hdot]
  · intro v w h0
    by_cases hlen : v.length = w.length
    · rcases h0 with h0 | h0 <;> simp [simple_similarity, hlen, h0]
    · simp [simple_similarity, hlen]
  · intro v w hlen
    simp [simple_similarity, hlen]

theorem simple_similarity_spec_witness :
    simple_similarity [1] [1] = 1 ∧
    simple_similarity [1, 0] [0, 1] = 0 ∧
    simple_similarity [0] [3] = 0 ∧
    simple_similarity [1] [1, 1] = 0 :=
  ⟨simple_similarity_spec.1 [1] ⟨1, by simp⟩,
   simple_similarity_spec.2.1 [1, 0] [0, 1] (by simp) (by norm_num [dotProd]),
   simple_similarity_spec.2.2.1 [0] [3] (Or.inl (by norm_num [sumSq])),
   simple_similarity_spec.2.2.2 [1] [1, 1] (by simp)⟩

theorem likeMatch_cons_percent (ps : List Char) (t : List Char) :
    likeMatch ('%' :: ps) t = t.tails.any (fun s => likeMatch ps s) := by
  rw [likeMatch.eq_def]
  simp

theorem likeMatch_cons_lit (p : Char) (ps : List Char) (c : Char) (ts : List Char)
    (hp : p ≠ '%') (hu : p ≠ '_') :
    likeMatch (p :: ps) (c :: ts) = ((p = c : Bool) && likeMatch ps ts) := by
  rw [likeMatch.eq_def]
  simp [hp, hu]

theorem likeMatch_cons_underscore (ps : List Char) (c : Char) (ts : List Char) :
    likeMatch ('_' :: ps) (c :: ts) = likeMatch ps ts := by
  rw [likeMatch.eq_def]
  simp

/-- A `%` pattern matches any text. -/
theorem likeMatch_percent (t : List Char) : likeMatch ['%'] t = true := by
  rw [likeMatch_cons_percent]
  apply List.any_eq_true.mpr
  refine ⟨[], ?_, by simp [likeMatch]⟩
  exact (List.mem_tails [] t).mpr List.nil_suffix

/-- If the remaining pattern matches a suffix, `%` absorbs the rest. -/
theorem likeMatch_percent_append (ps : List Char) :
    ∀ t1 t2, likeMatch ps t2 = true → likeMatch ('%' :: ps) (t1 ++ t2) = true := by
  intro t1 t2 h
  rw [likeMatch_cons_percent]
  apply List.any_eq_true.mpr
  exact ⟨t2, (List.mem_tails t2 (t1 ++ t2)).mpr (List.suffix_append t1 t2), h⟩

/-- A pattern consisting of a literal prefix `p` followed by `%` matches
any text that extends `p` (even when `p` itself contains wildcards). -/
theorem likeMatch_self_pat (p : List Char) :
    ∀ t, likeMatch (p ++ ['%']) (p ++ t) = true := by
  induction p with
  | nil => intro t; simpa using likeMatch_percent t
  | cons c ps ih =>
    intro t
    by_cases hc : c = '%'
    · subst hc
      show likeMatch ('%' :: (ps ++ ['%'])) ('%' :: (ps ++ t)) = true
      have := likeMatch_percent_append (ps ++ ['%']) ['%'] (ps ++ t) (ih t)
      simpa using this
    · by_cases hu : c = '_'
      · subst hu
        show likeMatch ('_' :: (ps ++ ['%'])) ('_' :: (ps ++ t)) = true
        rw [likeMatch_cons_underscore]
        exact ih t
      · show likeMatch (c :: (ps ++ ['%'])) (c :: (ps ++ t)) = true
        rw [likeMatch_cons_lit c (ps ++ ['%']) c (ps ++ t) hc hu]
        simp [ih t]

/-- `ORDER BY key DESC LIMIT 1` returns the row with the strictly greatest
key when that row is unique. -/
theorem insertionSort_natDesc_head {α : Type} (f : α → Nat) (l : List α) (x : α)
    (hx : x ∈ l) (hmax : ∀ y ∈ l, y ≠ x → f y < f x) :
    (List.insertionSort (natDesc f) l).head? = some x := by
  have hperm := List.perm_insertionSort (natDesc f) l
  have hsorted := List.sorted_insertionSort (natDesc f) l
  have hxs : x ∈ List.insertionSort (natDesc f) l := hperm.mem_iff.mpr hx
  cases hs : List.insertionSort (natDesc f) l with
  | nil => rw [hs] at hxs; simp at hxs
  | cons a t =>
    rw [hs] at hxs hsorted hperm
    rcases List.sorted_cons.mp hsorted with ⟨hrel, _⟩
    by_cases hax : a = x
    · simp [hax]
    · have hat : a ∈ l := hperm.mem_iff.mp (by simp)
      have hlt : f a < f x := hmax a hat hax
      rcases List.mem_cons.mp hxs with h | h
      · exact absurd h.symm hax
      · have := hrel x h
        unfold natDesc at this
        omega

/-- `splitFirst` on a list whose first separator occurrence is explicit. -/
theorem splitFirst_append (c : Char) (l1 l2 : List Char) (h : c ∉ l1) :
    splitFirst c (l1 ++ c :: l2) = some (l1, l2) := by
  induction l1 with
  | nil => simp [splitFirst]
  | cons a t ih =>
    have ha : ¬(a = c) := by
      intro hac
      exact h (by simp [hac])
    have ht : c ∉ t := fun hc => h (by simp [hc])
    simp [splitFirst, ha, ih ht]

/-- `splitFirst` finds no separator in a separator-free list. -/
theorem splitFirst_none (c : Char) (l : List Char) (h : c ∉ l) :
    splitFirst c l = none := by
  induction l with
  | nil => rfl
  | cons a t ih =>
    have ha : ¬(a = c) := by
      intro hac
      exact h (by simp [hac])
    have ht : c ∉ t := fun hc => h (by simp [hc])
    simp [splitFirst, ha, ih ht]

/-- Rows already in the table survive one insert attempt. -/
theorem addChunk_rows_mono (env : EmbEnv) (sid ctype : Str) (imp : ℚ)
    (tags : List Str) (md : Str) (st : CtxState) (chunk : Str) (r : ChunkRow)
    (hr : r ∈ st.rows) :
    r ∈ (addChunk env sid ctype imp tags md st chunk).2.rows := by
  unfold addChunk
  by_cases h : st.rows.any (fun r => (r.embedding_hash = hash_content chunk : Bool))
  · simpa [h] using hr
  · simp [h]
    exact Or.inl hr

theorem addChunkStep_rows_mono (env : EmbEnv) (sid ctype : Str) (imp : ℚ)
    (tags : List Str) (md : Str) (acc : List Nat × CtxState) (chunk : Str)
    (r : ChunkRow) (hr : r ∈ acc.2.rows) :
    r ∈ (addChunkStep env sid ctype imp tags md acc chunk).2.rows := by
  unfold addChunkStep
  have := addChunk_rows_mono env sid ctype imp tags md acc.2 chunk r hr
  cases hres : addChunk env sid ctype imp tags md acc.2 chunk with
  | mk o st' =>
    rw [hres] at this
    cases o <;> simpa using this

/-- After one insert attempt for a chunk, some row carries its hash. -/
theorem addChunkStep_hash_present (env : EmbEnv) (sid ctype : Str) (imp : ℚ)
    (tags : List Str) (md : Str) (acc : List Nat × CtxState) (chunk : Str) :
    ∃ r ∈ (addChunkStep env sid ctype imp tags md acc chunk).2.rows,
      r.embedding_hash = hash_content chunk := by
  unfold addChunkStep addChunk
  by_cases h : acc.2.rows.any (fun r => (r.embedding_hash = hash_content chunk : Bool))
  · rcases List.any_eq_true.mp h with ⟨r, hr, hhash⟩
    refine ⟨r, ?_, ?_⟩
    · simp [h, hr]
    · simpa using hhash
  · refine ⟨newChunkRow env sid ctype imp tags md acc.2 chunk, ?_, rfl⟩
    simp [h]

theorem foldAdd_rows_mono (env : EmbEnv) (sid ctype : Str) (imp : ℚ)
    (tags : List Str) (md : Str) :
    ∀ (chunks : List Str) (acc : List Nat × CtxState) (r : ChunkRow),
      r ∈ acc.2.rows →
      r ∈ (chunks.foldl (addChunkStep env sid ctype imp tags md) acc).2.rows := by
  intro chunks
  induction chunks with
  | nil => intro acc r hr; simpa using hr
  | cons c cs ih =>
    intro acc r hr
    exact ih _ r (addChunkStep_rows_mono env sid ctype imp tags md acc c r hr)

/-- After the insert loop, every processed chunk's hash is in the table. -/
theorem foldAdd_hash_present (env : EmbEnv) (sid ctype : Str) (imp : ℚ)
    (tags : List Str) (md : Str) :
    ∀ (chunks : List Str) (acc : List Nat × CtxState) (c : Str), c ∈ chunks →
      ∃ r ∈ (chunks.foldl (addChunkStep env sid ctype imp tags md) acc).2.rows,
        r.embedding_hash = hash_content c := by
  intro chunks
  induction chunks with
  | nil => intro acc c hc; simp at hc
  | cons c0 cs ih =>
    intro acc c hc
    rcases List.mem_cons.mp hc with hc | hc
    · subst hc
      rcases addChunkStep_hash_present env sid ctype imp tags md acc c with ⟨r, hr, hh⟩
      exact ⟨r, foldAdd_rows_mono env sid ctype imp tags md cs _ r hr, hh⟩
    · exact ih _ c hc

/-- A chunk whose hash is already present is skipped without any change. -/
theorem addChunkStep_noop (env : EmbEnv) (sid ctype : Str) (imp : ℚ)
    (tags : List Str) (md : Str) (acc : List Nat × CtxState) (chunk : Str)
    (h : ∃ r ∈ acc.2.rows, r.embedding_hash = hash_content chunk) :
    addChunkStep env sid ctype imp tags md acc chunk = acc := by
  rcases h with ⟨r, hr, hh⟩
  have hany : acc.2.rows.any (fun r => (r.embedding_hash = hash_content chunk : Bool)) := by
    exact List.any_eq_true.mpr ⟨r, hr, by simpa using hh⟩
  unfold addChunkStep addChunk
  simp [hany]

/-- An insert loop all of whose chunk hashes are already present changes
nothing and returns no ids. -/
theorem foldAdd_noop (env : EmbEnv) (sid ctype : Str) (imp : ℚ)
    (tags : List Str) (md : Str) :
    ∀ (chunks : List Str) (acc : List Nat × CtxState),
      (∀ c ∈ chunks, ∃ r ∈ acc.2.rows, r.embedding_hash = hash_content c) →
      chunks.foldl (addChunkStep env sid ctype imp tags md) acc = acc := by
  intro chunks
  induction chunks with
  | nil => intro acc _; rfl
  | cons c0 cs ih =>
    intro acc hpre
    have h0 : addChunkStep env sid ctype imp tags md acc c0 = acc :=
      addChunkStep_noop env sid ctype imp tags md acc c0 (hpre c0 (by simp))
    show List.foldl (addChunkStep env sid ctype imp tags md)
      (addChunkStep env sid ctype imp tags md acc c0) cs = acc
    rw [h0]
    exact ih acc (fun c hc => hpre c (by simp [hc]))

/-- C2: calling add_content twice with identical content, session and
parameters leaves the store exactly as after the first call: every chunk
hash already exists, so the second call silently skips every chunk and
inserts zero new rows (returning an empty id list). -/
theorem add_content_idempotent (env : EmbEnv) (st : CtxState)
    (sid content ctype : Str) (imp : ℚ) (tags : List Str) (md : Str) :
    add_content env (add_content env st sid content ctype imp tags md).2
        sid content ctype imp tags md
      = ([], (add_content env st sid content ctype imp tags md).2) := by
  unfold add_content
  apply foldAdd_noop
  intro c hc
  exact foldAdd_hash_present env sid ctype imp tags md (chunkTextDefault content)
    ([], st) c hc

theorem chunkTextAux_ne_nil (text : Str) (chunkSize overlap : Nat) :
    ∀ fuel start r, start < text.length →
      chunkTextAux text chunkSize overlap fuel start = some r → r ≠ [] := by
  intro fuel start r hlt hr
  cases fuel with
  | zero => simp [chunkTextAux] at hr
  | succ f =>
    by_cases hend : text.length ≤ start + chunkSize
    · simp [chunkTextAux, hlt, hend] at hr
      subst hr
      simp
    · cases hrec : chunkTextAux text chunkSize overlap f (start + chunkSize - overlap) with
      | none => simp [chunkTextAux, hlt, hend, hrec] at hr
      | some rest =>
        simp [chunkTextAux, hlt, hend, hrec] at hr
        subst hr
        simp

/-- The chunker always returns at least one chunk. -/
theorem chunkTextDefault_ne_nil (content : Str) : chunkTextDefault content ≠ [] := by
  unfold chunkTextDefault chunk_text
  by_cases hle : content.length ≤ 500
  · simp [hle]
  · have h0 : 0 < content.length := by omega
    obtain ⟨r, hr⟩ := Option.isSome_iff_exists.mp
      (chunkTextAux_isSome content 500 50 (by omega) (content.length + 1) 0 (by omega))
    have := chunkTextAux_ne_nil content 500 50 (content.length + 1) 0 r h0 hr
    simp [hle, hr, this]

/-- The insert loop only ever appends rows tagged with the given session. -/
theorem foldAdd_session (env : EmbEnv) (sid ctype : Str) (imp : ℚ)
    (tags : List Str) (md : Str) :
    ∀ (chunks : List Str) (acc : List Nat × CtxState),
      (∀ r ∈ acc.2.rows, r.session_id = sid) →
      ∀ r ∈ (chunks.foldl (addChunkStep env sid ctype imp tags md) acc).2.rows,
        r.session_id = sid := by
  intro chunks
  induction chunks with
  | nil => intro acc h r hr; exact h r hr
  | cons c cs ih =>
    intro acc h r hr
    refine ih (addChunkStep env sid ctype imp tags md acc c) ?_ r hr
    intro r' hr'
    unfold addChunkStep addChunk at hr'
    by_cases hany : acc.2.rows.any (fun r => (r.embedding_hash = hash_content c : Bool))
    · simp [hany] at hr'
      exact h r' hr'
    · simp [hany] at hr'
      rcases hr' with hr' | hr'
      · exact h r' hr'
      · subst hr'
        rfl

/-- The id accumulator never shrinks across the insert loop. -/
theorem foldAdd_ids_length (env : EmbEnv) (sid ctype : Str) (imp : ℚ)
    (tags : List Str) (md : Str) :
    ∀ (chunks : List Str) (acc : List Nat × CtxState),
      acc.1.length ≤ (chunks.foldl (addChunkStep env sid ctype imp tags md) acc).1.length := by
  intro chunks
  induction chunks with
  | nil => intro acc; simp
  | cons c cs ih =>
    intro acc
    refine le_trans ?_ (ih (addChunkStep env sid ctype imp tags md acc c))
    unfold addChunkStep
    cases hres : addChunk env sid ctype imp tags md acc.2 c with
    | mk o st' => cases o <;> simp

/-- C10: chunk deduplication is global across sessions.  Starting from an
empty store, add_content for session A stores at least one chunk; a later
add_content of the same content for a different session B inserts zero
rows and leaves the store unchanged, every stored row stays associated
with session A, and session-B retrieval (keyword or similarity) returns
nothing. -/
theorem add_content_dedup_global (env env2 : EmbEnv) (A B content ctype ctype2 : Str)
    (imp imp2 : ℚ) (tags tags2 : List Str) (md md2 : Str) (hAB : A ≠ B) :
    (add_content env emptyCtx A content ctype imp tags md).1 ≠ [] ∧
    add_content env2 (add_content env emptyCtx A content ctype imp tags md).2
        B content ctype2 imp2 tags2 md2
      = ([], (add_content env emptyCtx A content ctype imp tags md).2) ∧
    (∀ r ∈ (add_content env emptyCtx A content ctype imp tags md).2.rows,
      r.session_id = A) ∧
    (∀ q k, keyword_search
        (add_content env emptyCtx A content ctype imp tags md).2 B q k = []) ∧
    (∀ env3 q k m, search_by_similarity env3
        (add_content env emptyCtx A content ctype imp tags md).2 B q k m = []) := by
  have hsess : ∀ r ∈ (add_content env emptyCtx A content ctype imp tags md).2.rows,
      r.session_id = A := by
    unfold add_content
    apply foldAdd_session
    intro r hr
    simp [emptyCtx] at hr
  have hfilter : ∀ p : ChunkRow → Bool,
      (add_content env emptyCtx A content ctype imp tags md).2.rows.filter
        (fun r => (r.session_id = B : Bool) && p r) = [] := by
    intro p
    rw [List.filter_eq_nil_iff]
    intro r hr
    have := hsess r hr
    simp [this, hAB]
  refine ⟨?_, ?_, hsess, ?_, ?_⟩
  · cases hchunks : chunkTextDefault content with
    | nil => exact absurd hchunks (chunkTextDefault_ne_nil content)
    | cons c cs =>
      unfold add_content
      rw [hchunks]
      intro hnil
      have hstep : (addChunkStep env A ctype imp tags md ([], emptyCtx) c).1 = [1] := by
        unfold addChunkStep addChunk
        simp [emptyCtx]
      have hlen := foldAdd_ids_length env A ctype imp tags md cs
        (addChunkStep env A ctype imp tags md ([], emptyCtx) c)
      rw [hstep] at hlen
      simp only [List.foldl_cons] at hnil
      rw [hnil] at hlen
      simp at hlen
  · unfold add_content
    apply foldAdd_noop
    intro c hc
    exact foldAdd_hash_present env A ctype imp tags md (chunkTextDefault content)
      ([], emptyCtx) c hc
  · intro q k
    simp [keyword_search, hfilter]
  · intro env3 q k m
    unfold search_by_similarity
    cases henv : env3.embed q with
    | none => simp [keyword_search, hfilter]
    | some qe =>
      by_cases hqe : qe = []
      · simp [hqe, keyword_search, hfilter]
      · simp [hqe, hfilter]

theorem add_content_dedup_global_witness :
    ("a".data ≠ "b".data) ∧
    (add_content ⟨fun _ => none, fun _ _ => 0⟩ emptyCtx "a".data "x".data
        "text".data 1 [] [].asString.data).1 ≠ [] :=
  ⟨by decide,
   (add_content_dedup_global ⟨fun _ => none, fun _ _ => 0⟩
      ⟨fun _ => none, fun _ _ => 0⟩ "a".data "b".data "x".data "text".data
      "text".data 1 1 [] [] [].asString.data [].asString.data (by decide)).1⟩

/-- The disabled early-return branch of add_to_session_memory. -/
theorem add_disabled_eq (env : EmbEnv) (st : SysState)
    (content ctype : Str) (tags : List Str) (imp : ℚ) (md : Str)
    (h : st.memoryEnabled = false) :
    add_to_session_memory env st content ctype tags imp md = (-1, st) := by
  unfold add_to_session_memory
  simp [h]

/-- C6: when memory_enabled is false, add_to_session_memory returns the
sentinel -1 and performs no write: the whole state (ephemeral buffer,
durable store and context-chunk store) is unchanged, for every combination
of arguments. -/
theorem add_to_session_memory_disabled (env : EmbEnv) (st : SysState)
    (content ctype : Str) (tags : List Str) (imp : ℚ) (md : Str)
    (h : st.memoryEnabled = false) :
    add_to_session_memory env st content ctype tags imp md = (-1, st) :=
  add_disabled_eq env st content ctype tags imp md h

theorem add_to_session_memory_disabled_witness :
    (stDisabled.memoryEnabled = false) ∧
    add_to_session_memory envNone stDisabled "hello".data "text".data [] 1
        [].asString.data = (-1, stDisabled) :=
  ⟨rfl, add_to_session_memory_disabled envNone stDisabled "hello".data
    "text".data [] 1 [].asString.data rfl⟩

/-- Taking `n` after appending an already-`n`-truncated tail is the same
as truncating the untruncated append. -/
theorem take_append_take {α : Type} (xs l : List α) (n : Nat) :
    (xs ++ l.take n).take n = (xs ++ l).take n := by
  rw [List.take_append_eq_append_take, List.take_append_eq_append_take,
    List.take_take]
  congr 2
  omega

/-- Effect of one enabled add on the ephemeral buffer: prepend the new
content, truncate to capacity; the flag survives. -/
theorem add_enabled_buffer (env : EmbEnv) (st : SysState) (content ctype : Str)
    (tags : List Str) (imp : ℚ) (md : Str) (h : st.memoryEnabled = true) :
    (add_to_session_memory env st content ctype tags imp md).2.sessionMemory.map
        (fun e => e.content)
      = (content :: st.sessionMemory.map (fun e => e.content)).take
          session_memory_limit ∧
    (add_to_session_memory env st content ctype tags imp md).2.memoryEnabled = true := by
  unfold add_to_session_memory
  simp only [h, Bool.true_eq_false, if_false]
  constructor
  · by_cases hlen : session_memory_limit <
        (({ content := content, timestamp := st.db.clock, content_type := ctype,
            tags := tags, importance := imp, metadata := md,
            entry_id := some (add_memory_entry st.db st.session_id content ctype
              imp tags md).1 } : MemoryEntry) :: st.sessionMemory).length
    · simp only [hlen, if_true]
      simp [List.map_take]
    · simp only [hlen, if_false]
      have hle : (content :: st.sessionMemory.map (fun e => e.content)).length ≤
          session_memory_limit := by
        simp at hlen ⊢
        simpa using hlen
      rw [List.take_of_length_le hle]
      simp
  · trivial

theorem foldAddMemory_buffer (env : EmbEnv) :
    ∀ (args : List AddArgs) (st : SysState), st.memoryEnabled = true →
      st.sessionMemory.length ≤ session_memory_limit →
      (foldAddMemory env st args).sessionMemory.map (fun e => e.content)
        = ((args.map AddArgs.content).reverse ++
            st.sessionMemory.map (fun e => e.content)).take session_memory_limit ∧
      (foldAddMemory env st args).memoryEnabled = true := by
  intro args
  induction args with
  | nil =>
    intro st hen hlen
    refine ⟨?_, hen⟩
    have : (st.sessionMemory.map (fun e => e.content)).length ≤
        session_memory_limit := by simpa using hlen
    simp [foldAddMemory, List.take_of_length_le this]
  | cons a rest ih =>
    intro st hen hlen
    have hstep := add_enabled_buffer env st a.content a.ctype a.tags a.imp a.md hen
    have hlen' : (add_to_session_memory env st a.content a.ctype a.tags a.imp
        a.md).2.sessionMemory.length ≤ session_memory_limit := by
      have := congrArg List.length hstep.1
      simp only [List.length_map] at this
      rw [this]
      exact le_trans (List.length_take_le session_memory_limit _) (le_refl _)
    have hrec := ih (add_to_session_memory env st a.content a.ctype a.tags a.imp a.md).2
      hstep.2 hlen'
    refine ⟨?_, hrec.2⟩
    have hfold : foldAddMemory env st (a :: rest)
        = foldAddMemory env
            (add_to_session_memory env st a.content a.ctype a.tags a.imp a.md).2
            rest := by
      simp [foldAddMemory]
    rw [hfold, hrec.1, hstep.1]
    rw [take_append_take]
    simp

/-- C5: after every call to add_to_session_memory the ephemeral buffer
never exceeds its capacity (100); inserting K > capacity entries into a
fresh enabled session leaves exactly the capacity many most recent
insertions, newest-first (FIFO eviction of the oldest, independent of
importance). -/
theorem ephemeral_capacity_spec (env : EmbEnv) :
    (∀ (st : SysState) (content ctype : Str) (tags : List Str) (imp : ℚ) (md : Str),
       st.sessionMemory.length ≤ session_memory_limit →
       (add_to_session_memory env st content ctype tags imp md).2.sessionMemory.length
         ≤ session_memory_limit) ∧
    (∀ (st : SysState) (args : List AddArgs),
       st.memoryEnabled = true → st.sessionMemory = [] →
       (foldAddMemory env st args).sessionMemory.map (fun e => e.content)
         = ((args.map AddArgs.content).reverse).take session_memory_limit ∧
       (session_memory_limit < args.length →
         (foldAddMemory env st args).sessionMemory.length = session_memory_limit)) := by
  constructor
  · intro st content ctype tags imp md hlen
    by_cases hen : st.memoryEnabled = true
    · have hstep := (add_enabled_buffer env st content ctype tags imp md hen).1
      have := congrArg List.length hstep
      simp only [List.length_map] at this
      rw [this]
      exact List.length_take_le session_memory_limit _
    · have hfalse : st.memoryEnabled = false := by
        cases h : st.memoryEnabled
        · rfl
        · exact absurd h hen
      rw [add_disabled_eq env st content ctype tags imp md hfalse]
      exact hlen
  · intro st args hen hbuf
    have hmain := foldAddMemory_buffer env args st hen (by simp [hbuf])
    have hmap : (foldAddMemory env st args).sessionMemory.map (fun e => e.content)
        = ((args.map AddArgs.content).reverse).take session_memory_limit := by
      rw [hmain.1, hbuf]
      simp
    refine ⟨hmap, ?_⟩
    intro hk
    have := congrArg List.length hmap
    simp only [List.length_map, List.length_take, List.length_reverse] at this
    rw [this]
    omega

theorem ephemeral_capacity_spec_witness :
    (stEnabled.memoryEnabled = true) ∧
    session_memory_limit <
      (List.replicate 101 (⟨"c".data, "t".data, [], 1, [].asString.data⟩ : AddArgs)).length ∧
    (foldAddMemory envNone stEnabled
        (List.replicate 101 (⟨"c".data, "t".data, [], 1, [].asString.data⟩ : AddArgs))).sessionMemory.length
      = session_memory_limit :=
  ⟨rfl, by simp [session_memory_limit],
   ((ephemeral_capacity_spec envNone).2 stEnabled
      (List.replicate 101 (⟨"c".data, "t".data, [], 1, [].asString.data⟩ : AddArgs))
      rfl rfl).2 (by simp [session_memory_limit])⟩

theorem dedupByContent_first : ∀ (l : List MemoryEntry) (seen : List Str)
    (e : MemoryEntry), e ∈ dedupByContent l seen →
      hash_content e.content ∉ seen ∧
      ∃ pre post, l = pre ++ e :: post ∧
        ∀ x ∈ pre, hash_content x.content ≠ hash_content e.content := by
  intro l
  induction l with
  | nil => intro seen e he; simp [dedupByContent] at he
  | cons a rest ih =>
    intro seen e he
    by_cases ha : hash_content a.content ∈ seen
    · rw [dedupByContent, if_pos ha] at he
      rcases ih seen e he with ⟨hseen, pre, post, hsplit, hpre⟩
      refine ⟨hseen, a :: pre, post, by simp [hsplit], ?_⟩
      intro x hx
      rcases List.mem_cons.mp hx with hx | hx
      · subst hx
        intro hEq
        rw [hEq] at ha
        exact hseen ha
      · exact hpre x hx
    · rw [dedupByContent, if_neg ha] at he
      rcases List.mem_cons.mp he with he | he
      · subst he
        exact ⟨ha, [], rest, rfl, by simp⟩
      · rcases ih (hash_content a.content :: seen) e he with ⟨hseen, pre, post, hsplit, hpre⟩
        have hne : hash_content a.content ≠ hash_content e.content := by
          intro hEq
          exact hseen (by simp [hEq])
        refine ⟨fun hs => hseen (by simp [hs]), a :: pre, post, by simp [hsplit], ?_⟩
        intro x hx
        rcases List.mem_cons.mp hx with hx | hx
        · subst hx
          exact hne
        · exact hpre x hx

theorem dedupByContent_pairwise : ∀ (l : List MemoryEntry) (seen : List Str),
    List.Pairwise (fun a b => hash_content a.content ≠ hash_content b.content)
      (dedupByContent l seen) := by
  intro l
  induction l with
  | nil => intro seen; simp [dedupByContent]
  | cons a rest ih =>
    intro seen
    by_cases ha : hash_content a.content ∈ seen
    · rw [dedupByContent, if_pos ha]
      exact ih seen
    · rw [dedupByContent, if_neg ha]
      refine List.Pairwise.cons ?_ (ih _)
      intro y hy
      have := (dedupByContent_first rest (hash_content a.content :: seen) y hy).1
      intro hEq
      exact this (by simp [hEq])

/-- The first occurrence of a hash in `l1 ++ l2` lies in `l1` whenever some
element of `l1` carries that hash. -/
theorem first_occ_in_left : ∀ (l1 l2 pre post : List MemoryEntry)
    (e c : MemoryEntry), l1 ++ l2 = pre ++ e :: post →
      (∀ x ∈ pre, hash_content x.content ≠ hash_content e.content) →
      c ∈ l1 → hash_content c.content = hash_content e.content → e ∈ l1 := by
  intro l1
  induction l1 with
  | nil => intro l2 pre post e c _ _ hc; simp at hc
  | cons a l1' ih =>
    intro l2 pre post e c hsplit hpre hc hhash
    cases pre with
    | nil =>
      simp at hsplit
      exact List.mem_cons.mpr (Or.inl hsplit.1.symm)
    | cons p pre' =>
      simp at hsplit
      rcases hsplit with ⟨hap, hrest⟩
      rcases List.mem_cons.mp hc with hc | hc
      · exfalso
        apply hpre p (by simp)
        rw [← hap, ← hc]
        exact hhash
      · have := ih l2 pre' post e c hrest
          (fun x hx => hpre x (by simp [hx])) hc hhash
        exact List.mem_cons.mpr (Or.inr this)

/-- C3: for every query, search_session_memory merges the three result
sources with Context-Manager similarity results first, then ephemeral
substring matches, then Storage-Engine substring matches; removes
duplicates by content hash keeping the first occurrence (so source
priority decides which duplicate survives); sorts the survivors by
(importance, timestamp) descending and truncates to max_results. -/
theorem search_session_memory_spec (env : EmbEnv) (st : SysState) (query : Str)
    (ctype : Option Str) (maxResults : Nat) (hEn : st.memoryEnabled = true) :
    (search_session_memory env st query ctype maxResults).length ≤ maxResults ∧
    List.Sorted (lexDesc entrySortKey)
      (search_session_memory env st query ctype maxResults) ∧
    List.Pairwise (fun a b => hash_content a.content ≠ hash_content b.content)
      (search_session_memory env st query ctype maxResults) ∧
    (∀ e ∈ search_session_memory env st query ctype maxResults,
      ∃ pre post, all_results env st query ctype maxResults = pre ++ e :: post ∧
        ∀ x ∈ pre, hash_content x.content ≠ hash_content e.content) ∧
    (∀ e ∈ search_session_memory env st query ctype maxResults,
      (∃ c ∈ context_entries env st query maxResults,
          hash_content c.content = hash_content e.content) →
      e ∈ context_entries env st query maxResults) := by
  have hout : search_session_memory env st query ctype maxResults
      = (List.insertionSort (lexDesc entrySortKey)
          (dedupByContent (all_results env st query ctype maxResults) [])).take
          maxResults := by
    unfold search_session_memory
    simp [hEn]
  have hperm := List.perm_insertionSort (lexDesc entrySortKey)
    (dedupByContent (all_results env st query ctype maxResults) [])
  have hfirst : ∀ e ∈ search_session_memory env st query ctype maxResults,
      ∃ pre post, all_results env st query ctype maxResults = pre ++ e :: post ∧
        ∀ x ∈ pre, hash_content x.content ≠ hash_content e.content := by
    intro e he
    rw [hout] at he
    have hsort : e ∈ List.insertionSort (lexDesc entrySortKey)
        (dedupByContent (all_results env st query ctype maxResults) []) :=
      List.mem_of_mem_take he
    have hdedup : e ∈ dedupByContent (all_results env st query ctype maxResults) [] :=
      hperm.mem_iff.mp hsort
    exact (dedupByContent_first _ [] e hdedup).2
  refine ⟨?_, ?_, ?_, hfirst, ?_⟩
  · rw [hout]
    exact List.length_take_le maxResults _
  · rw [hout]
    exact (List.sorted_insertionSort (lexDesc entrySortKey) _).sublist
      (List.take_sublist _ _)
  · rw [hout]
    have hpw := dedupByContent_pairwise (all_results env st query ctype maxResults) []
    have hpwSort := (hperm.pairwise_iff (fun hxy hEq => hxy hEq.symm)).mpr hpw
    exact hpwSort.sublist (List.take_sublist _ _)
  · intro e he ⟨c, hc, hhash⟩
    rcases hfirst e he with ⟨pre, post, hsplit, hpre⟩
    have hassoc : context_entries env st query maxResults ++
        (ephemeral_results st query ++ persistent_entries st query ctype maxResults)
        = pre ++ e :: post := by
      rw [← List.append_assoc]
      exact hsplit
    exact first_occ_in_left (context_entries env st query maxResults)
      (ephemeral_results st query ++ persistent_entries st query ctype maxResults)
      pre post e c hassoc hpre hc hhash

theorem search_session_memory_spec_witness :
    (stEnabled.memoryEnabled = true) ∧
    (search_session_memory envNone stEnabled "q".data none 10).length ≤ 10 :=
  ⟨rfl, (search_session_memory_spec envNone stEnabled "q".data none 10 rfl).1⟩

/-- C8 counterexample: saving under the name "a_b" (a name containing an
underscore) and then listing available sessions does not recover "a_b" —
`split('_', 2)` truncates the name at its first underscore, yielding "a". -/
theorem get_available_sessions_counterexample :
    "a_b".data ∉ get_available_sessions (save_session_memory stEnabled "a_b".data).2 ∧
    get_available_sessions (save_session_memory stEnabled "a_b".data).2 = ["a".data] := by
  constructor
  · decide
  · decide

/-- Storing side chunks touches neither the entry rows nor the sessions. -/
theorem chunk_and_store_content_keeps (eid : Nat) (content : Str) :
    ∀ db : DbState,
      (chunk_and_store_content db eid content).entries = db.entries ∧
      (chunk_and_store_content db eid content).sessions = db.sessions := by
  unfold chunk_and_store_content
  generalize List.range ((content.length + 499) / 500) = idxs
  induction idxs with
  | nil => intro db; exact ⟨rfl, rfl⟩
  | cons k ks ih =>
    intro db
    simp only [List.foldl_cons]
    exact ih _

/-- Adding an entry to an existing session appends exactly one row for that
session and leaves the session table unchanged. -/
theorem add_memory_entry_exists (db : DbState) (sid content ctype : Str)
    (imp : ℚ) (tags : List Str) (md : Str)
    (hex : session_exists db sid = true) :
    (add_memory_entry db sid content ctype imp tags md).2.entries
      = db.entries ++
        [{ id := db.nextEntryId, session_id := sid, content := content,
           content_type := ctype, importance := imp, created_at := db.clock,
           updated_at := db.clock, tags := tags, metadata := md }] ∧
    (add_memory_entry db sid content ctype imp tags md).2.sessions = db.sessions := by
  unfold add_memory_entry
  simp only [hex, if_true]
  by_cases hbig : 1000 < content.length
  · simp only [hbig, if_true]
    constructor
    · exact (chunk_and_store_content_keeps db.nextEntryId content _).1
    · exact (chunk_and_store_content_keeps db.nextEntryId content _).2
  · simp [hbig]

/-- Copying entries into an existing backup session: the session table is
untouched, the backup session's entry contents gain exactly the copied
contents in order, and every other session's entries are untouched. -/
theorem foldCopy_view (bk : Str) :
    ∀ (es : List EntryRow) (db : DbState), session_exists db bk = true →
      let d' := es.foldl (fun d e => (add_memory_entry d bk e.content
        e.content_type e.importance e.tags e.metadata).2) db
      d'.sessions = db.sessions ∧
      (d'.entries.filter (fun e => (e.session_id = bk : Bool))).map (fun e => e.content)
        = (db.entries.filter (fun e => (e.session_id = bk : Bool))).map (fun e => e.content)
            ++ es.map (fun e => e.content) ∧
      (∀ sid', sid' ≠ bk →
        d'.entries.filter (fun e => (e.session_id = sid' : Bool))
          = db.entries.filter (fun e => (e.session_id = sid' : Bool))) := by
  intro es
  induction es with
  | nil => intro db hex; exact ⟨rfl, by simp, fun _ _ => rfl⟩
  | cons e0 es ih =>
    intro db hex
    have hstep := add_memory_entry_exists db bk e0.content e0.content_type
      e0.importance e0.tags e0.metadata hex
    have hex' : session_exists
        (add_memory_entry db bk e0.content e0.content_type e0.importance
          e0.tags e0.metadata).2 bk = true := by
      unfold session_exists at hex ⊢
      rw [hstep.2]
      exact hex
    have hrec := ih (add_memory_entry db bk e0.content e0.content_type
      e0.importance e0.tags e0.metadata).2 hex'
    simp only [List.foldl_cons]
    refine ⟨by rw [hrec.1, hstep.2], ?_, ?_⟩
    · rw [hrec.2.1, hstep.1]
      simp [List.filter_append]
    · intro sid' hne
      rw [hrec.2.2 sid' hne, hstep.1]
      have : ¬ (bk = sid') := fun h => hne h.symm
      simp [List.filter_append, this]

/-- With the full session in range of the 10000 limit, get_memory_entries
returns a permutation of the session's rows. -/
theorem get_memory_entries_perm (db : DbState) (sid : Str)
    (hN : (db.entries.filter (fun e => (e.session_id = sid : Bool))).length ≤ 10000) :
    (get_memory_entries db sid 10000 0).Perm
      (db.entries.filter (fun e => (e.session_id = sid : Bool))) := by
  unfold get_memory_entries
  have hperm := List.perm_insertionSort (lexDesc entryKey)
    (db.entries.filter (fun e => (e.session_id = sid : Bool)))
  have hlen : (List.insertionSort (lexDesc entryKey)
      (db.entries.filter (fun e => (e.session_id = sid : Bool)))).length ≤ 10000 := by
    rw [List.length_insertionSort]
    exact hN
  rw [List.drop_zero, List.take_of_length_le hlen]
  exact hperm

/-- Effect of `save_session_memory` under the runtime invariants: it
returns true, changes only the database, appends exactly the backup
session row, fills the backup session with a permutation of the current
session's entry contents, and leaves every other session's entries
untouched. -/
theorem save_effect (st : SysState) (name : Str)
    (hFresh : session_exists st.db (backupSessionId st name) = false)
    (hNoBk : ∀ e ∈ st.db.entries, e.session_id ≠ backupSessionId st name)
    (hN : (st.db.entries.filter
      (fun e => (e.session_id = st.session_id : Bool))).length ≤ 10000) :
    (save_session_memory st name).1 = true ∧
    (save_session_memory st name).2.session_id = st.session_id ∧
    (save_session_memory st name).2.memoryEnabled = st.memoryEnabled ∧
    (save_session_memory st name).2.sessionMemory = st.sessionMemory ∧
    (save_session_memory st name).2.ctx = st.ctx ∧
    (save_session_memory st name).2.db.sessions
      = st.db.sessions ++ [savedSessionRow st name] ∧
    (((save_session_memory st name).2.db.entries.filter
        (fun e => (e.session_id = backupSessionId st name : Bool))).map
        (fun e => e.content)).Perm
      ((st.db.entries.filter
        (fun e => (e.session_id = st.session_id : Bool))).map (fun e => e.content)) ∧
    (∀ sid', sid' ≠ backupSessionId st name →
      (save_session_memory st name).2.db.entries.filter
          (fun e => (e.session_id = sid' : Bool))
        = st.db.entries.filter (fun e => (e.session_id = sid' : Bool))) := by
  have hcre : create_session st.db (backupSessionId st name) st.project_path
      emptyJsonObject = (true, dbAfterBackup st name) := by
    unfold create_session dbAfterBackup savedSessionRow
    simp [hFresh]
  have hsv : save_session_memory st name
      = (true,
         { st with
           db :=
             List.foldl
               (fun d e => (add_memory_entry d (backupSessionId st name) e.content
                 e.content_type e.importance e.tags e.metadata).2)
               (dbAfterBackup st name)
               (get_memory_entries (dbAfterBackup st name) st.session_id 10000 0) }) := by
    unfold save_session_memory
    simp only [hcre]
  have hexbk : session_exists (dbAfterBackup st name) (backupSessionId st name)
      = true := by
    unfold session_exists dbAfterBackup savedSessionRow
    simp
  have hview := foldCopy_view (backupSessionId st name)
    (get_memory_entries (dbAfterBackup st name) st.session_id 10000 0)
    (dbAfterBackup st name) hexbk
  have hbknil : st.db.entries.filter
      (fun e => (e.session_id = backupSessionId st name : Bool)) = [] := by
    rw [List.filter_eq_nil_iff]
    intro e he
    simpa using hNoBk e he
  have hcurperm : (get_memory_entries (dbAfterBackup st name)
      st.session_id 10000 0).Perm
      (st.db.entries.filter (fun e => (e.session_id = st.session_id : Bool))) :=
    get_memory_entries_perm _ st.session_id hN
  rw [hsv]
  refine ⟨rfl, rfl, rfl, rfl, rfl, ?_, ?_, ?_⟩
  · rw [hview.1]
    unfold dbAfterBackup
    rfl
  · rw [hview.2.1]
    unfold dbAfterBackup
    simp only [hbknil, List.map_nil, List.nil_append]
    have := hcurperm.map (fun e => e.content)
    simpa using this
  · intro sid' hne
    rw [hview.2.2 sid' hne]
    rfl

theorem isPrefixOf_self_append (p t : List Char) :
    p.isPrefixOf (p ++ t) = true := by
  induction p with
  | nil => simp [List.isPrefixOf]
  | cons c ps ih => simp [List.isPrefixOf, ih]

/-- Name recovery from a backup id: for a name free of underscores,
`split('_', 2)[1]` yields exactly the name. -/
theorem extractSavedName_backup (name ts : Str) (hU : '_' ∉ name) :
    extractSavedName (savedTag ++ name ++ '_' :: ts) = some name := by
  have hpre : savedTag.isPrefixOf (savedTag ++ name ++ '_' :: ts) = true := by
    have h0 := isPrefixOf_self_append savedTag (name ++ '_' :: ts)
    rw [← List.append_assoc] at h0
    exact h0
  have hshape : savedTag ++ name ++ '_' :: ts
      = "saved".data ++ '_' :: (name ++ '_' :: ts) := by
    have : savedTag = "saved".data ++ ['_'] := by decide
    rw [this]
    simp
  have hs1 : splitFirst '_' (savedTag ++ name ++ '_' :: ts)
      = some ("saved".data, name ++ '_' :: ts) := by
    rw [hshape]
    exact splitFirst_append '_' "saved".data (name ++ '_' :: ts) (by decide)
  have hs2 : splitFirst '_' (name ++ '_' :: ts) = some (name, ts) :=
    splitFirst_append '_' name ts hU
  unfold extractSavedName
  rw [hpre]
  simp only [if_true]
  rw [splitLimit.eq_def]
  simp only [hs1]
  rw [splitLimit.eq_def]
  simp only [hs2]

/-- Membership in the name-collecting fold of get_available_sessions. -/
theorem mem_available_fold :
    ∀ (rows : List SessionRow) (acc : List Str) (nm : Str),
      (nm ∈ acc ∨ ∃ r ∈ rows, extractSavedName r.session_id = some nm) →
      nm ∈ rows.foldl
        (fun acc r =>
          match extractSavedName r.session_id with
          | some x => if x ∈ acc then acc else acc ++ [x]
          | none => acc) acc := by
  intro rows
  induction rows with
  | nil =>
    intro acc nm h
    rcases h with h | ⟨r, hr, _⟩
    · exact h
    · simp at hr
  | cons r0 rest ih =>
    intro acc nm h
    simp only [List.foldl_cons]
    apply ih
    rcases h with h | ⟨r, hr, hx⟩
    · left
      cases hext : extractSavedName r0.session_id with
      | none => exact h
      | some x =>
        by_cases hx : x ∈ acc
        · simp [hext, hx]
          exact h
        · simp [hext, hx]
          exact Or.inl h
    · rcases List.mem_cons.mp hr with hr | hr
      · subst hr
        left
        rw [hx]
        by_cases hnm : nm ∈ acc
        · simp [hnm]
        · simp [hnm]
      · right
        exact ⟨r, hr, hx⟩

/-- `ORDER BY created_at DESC LIMIT 1` finds the strictly newest matching
session row. -/
theorem load_lookup_finds (db : DbState) (name : Str) (row : SessionRow)
    (hrow : row ∈ db.sessions)
    (hmatch : likeMatch (savedTag ++ name ++ '_' :: ['%']) row.session_id = true)
    (hmax : ∀ y ∈ db.sessions, y ≠ row → y.created_at < row.created_at) :
    load_lookup db name = some row := by
  unfold load_lookup
  apply insertionSort_natDesc_head
  · exact List.mem_filter.mpr ⟨hrow, hmatch⟩
  · intro y hy hne
    exact hmax y (List.mem_filter.mp hy).1 hne

/-- The backup id matches its own LIKE lookup pattern. -/
theorem likeMatch_backup_pattern (name ts : Str) :
    likeMatch (savedTag ++ name ++ '_' :: ['%']) (savedTag ++ name ++ '_' :: ts)
      = true := by
  have := likeMatch_self_pat (savedTag ++ name ++ ['_']) ts
  simpa [List.append_assoc] using this

/-- The backup id matches the LIKE 'saved_%' listing pattern. -/
theorem likeMatch_saved_pattern (rest : Str) :
    likeMatch (savedTag ++ ['%']) (savedTag ++ rest) = true :=
  likeMatch_self_pat savedTag rest

/-- Effects of clear_all_memory: buffer emptied, the current session's
entry rows deleted, everything else untouched. -/
theorem clear_all_memory_effect (st : SysState) :
    (clear_all_memory st).session_id = st.session_id ∧
    (clear_all_memory st).project_path = st.project_path ∧
    (clear_all_memory st).memoryEnabled = st.memoryEnabled ∧
    (clear_all_memory st).sessionMemory = [] ∧
    (clear_all_memory st).db.sessions = st.db.sessions ∧
    (clear_all_memory st).db.clock = st.db.clock ∧
    (clear_all_memory st).db.entries
      = st.db.entries.filter (fun e => !(e.session_id = st.session_id : Bool)) := by
  unfold clear_all_memory clear_persistent_memory clear_session_memory
    delete_session_memory delete_session_content
  refine ⟨?_, ?_, ?_, ?_, ?_, ?_, ?_⟩ <;> rfl

/-- Database effect of one enabled add_to_session_memory call. -/
theorem add_to_session_memory_db_effect (env : EmbEnv) (st : SysState)
    (content ctype : Str) (tags : List Str) (imp : ℚ) (md : Str)
    (hen : st.memoryEnabled = true)
    (hex : session_exists st.db st.session_id = true) :
    (add_to_session_memory env st content ctype tags imp md).2.db.entries
      = st.db.entries ++
        [{ id := st.db.nextEntryId, session_id := st.session_id,
           content := content, content_type := ctype, importance := imp,
           created_at := st.db.clock, updated_at := st.db.clock, tags := tags,
           metadata := md }] ∧
    (add_to_session_memory env st content ctype tags imp md).2.db.sessions
      = st.db.sessions ∧
    (add_to_session_memory env st content ctype tags imp md).2.session_id
      = st.session_id ∧
    (add_to_session_memory env st content ctype tags imp md).2.memoryEnabled
      = true := by
  have hdb := add_memory_entry_exists st.db st.session_id content ctype imp
    tags md hex
  unfold add_to_session_memory
  simp only [hen, Bool.true_eq_false, if_false]
  exact ⟨hdb.1, hdb.2, trivial, trivial⟩

/-- Re-adding a list of entries through the facade: the session table is
untouched and the current session's entry contents gain exactly the
re-added contents in order. -/
theorem foldReAdd_view (env : EmbEnv) :
    ∀ (es : List EntryRow) (s : SysState), s.memoryEnabled = true →
      session_exists s.db s.session_id = true →
      let s' := es.foldl (fun s e => (add_to_session_memory env s e.content
        e.content_type e.tags e.importance e.metadata).2) s
      s'.session_id = s.session_id ∧ s'.memoryEnabled = true ∧
      s'.db.sessions = s.db.sessions ∧
      (s'.db.entries.filter (fun e => (e.session_id = s.session_id : Bool))).map
          (fun e => e.content)
        = (s.db.entries.filter (fun e => (e.session_id = s.session_id : Bool))).map
            (fun e => e.content) ++ es.map (fun e => e.content) := by
  intro es
  induction es with
  | nil => intro s hen hex; exact ⟨rfl, hen, rfl, by simp⟩
  | cons e0 rest ih =>
    intro s hen hex
    have hstep := add_to_session_memory_db_effect env s e0.content
      e0.content_type e0.tags e0.importance e0.metadata hen hex
    have hex' : session_exists
        (add_to_session_memory env s e0.content e0.content_type e0.tags
          e0.importance e0.metadata).2.db
        (add_to_session_memory env s e0.content e0.content_type e0.tags
          e0.importance e0.metadata).2.session_id = true := by
      unfold session_exists at hex ⊢
      rw [hstep.2.1, hstep.2.2.1]
      exact hex
    have hrec := ih (add_to_session_memory env s e0.content e0.content_type
      e0.tags e0.importance e0.metadata).2 hstep.2.2.2 hex'
    simp only [List.foldl_cons]
    rw [hstep.2.2.1] at hrec
    refine ⟨hrec.1, hrec.2.1, ?_, ?_⟩
    · rw [hrec.2.2.1, hstep.2.1]
    · rw [hrec.2.2.2, hstep.1]
      simp [List.filter_append]

/-- Deleting one session's rows does not disturb another session's rows. -/
theorem filter_after_delete (bk cur : Str) (l : List EntryRow) (h : bk ≠ cur) :
    (l.filter (fun e => !(e.session_id = cur : Bool))).filter
        (fun e => (e.session_id = bk : Bool))
      = l.filter (fun e => (e.session_id = bk : Bool)) := by
  rw [List.filter_filter]
  apply List.filter_congr
  intro e _
  by_cases hc : e.session_id = bk
  · have : ¬ (e.session_id = cur) := by
      rw [hc]
      exact h
    simp [hc, this, h]
  · simp [hc]

/-- After deleting a session's rows, that session's view is empty. -/
theorem filter_deleted_empty (cur : Str) (l : List EntryRow) :
    (l.filter (fun e => !(e.session_id = cur : Bool))).filter
        (fun e => (e.session_id = cur : Bool)) = [] := by
  rw [List.filter_filter]
  rw [List.filter_eq_nil_iff]
  intro e _
  by_cases hc : e.session_id = cur <;> simp [hc]

/-- C8 corrected: for a snapshot name free of underscores, the facade's
naming convention round-trips — after save_session_memory(name),
get_available_sessions contains the name, and the load lookup finds
exactly the snapshot session created under that name (the newest one);
load_session_memory(name) then succeeds.  (Names containing an underscore
are truncated by split('_', 2): see the counterexample.) -/
theorem saved_name_spec (env : EmbEnv) (st : SysState) (name : Str)
    (hU : '_' ∉ name)
    (hClock : ∀ s ∈ st.db.sessions, s.created_at < st.db.clock)
    (hFresh : session_exists st.db (backupSessionId st name) = false)
    (hNoBk : ∀ e ∈ st.db.entries, e.session_id ≠ backupSessionId st name)
    (hN : (st.db.entries.filter
      (fun e => (e.session_id = st.session_id : Bool))).length ≤ 10000) :
    name ∈ get_available_sessions (save_session_memory st name).2 ∧
    load_lookup (save_session_memory st name).2.db name
      = some (savedSessionRow st name) ∧
    (load_session_memory env (save_session_memory st name).2 name).1 = true := by
  have hsv := save_effect st name hFresh hNoBk hN
  have hsessions := hsv.2.2.2.2.2.1
  have hid : (savedSessionRow st name).session_id
      = savedTag ++ name ++ '_' :: (Nat.repr st.db.clock).data := rfl
  have hmem : savedSessionRow st name ∈ (save_session_memory st name).2.db.sessions := by
    rw [hsessions]
    simp
  have hlookup : load_lookup (save_session_memory st name).2.db name
      = some (savedSessionRow st name) := by
    apply load_lookup_finds
    · exact hmem
    · rw [hid]
      exact likeMatch_backup_pattern name _
    · intro y hy hne
      rw [hsessions] at hy
      rcases List.mem_append.mp hy with hy | hy
      · have := hClock y hy
        show y.created_at < (savedSessionRow st name).created_at
        unfold savedSessionRow
        simpa using this
      · simp at hy
        exact absurd hy hne
  refine ⟨?_, hlookup, ?_⟩
  · unfold get_available_sessions
    apply mem_available_fold
    right
    refine ⟨savedSessionRow st name, ?_, ?_⟩
    · apply (List.perm_insertionSort _ _).mem_iff.mpr
      apply List.mem_filter.mpr
      refine ⟨hmem, ?_⟩
      rw [hid, List.append_assoc]
      exact likeMatch_saved_pattern _
    · rw [hid]
      exact extractSavedName_backup name _ hU
  · unfold load_session_memory
    rw [hlookup]

theorem saved_name_spec_witness :
    ('_' ∉ "x".data) ∧
    "x".data ∈ get_available_sessions (save_session_memory stEnabled "x".data).2 :=
  ⟨by decide,
   (saved_name_spec envNone stEnabled "x".data (by decide) (by decide)
     (by decide) (by decide) (by decide)).1⟩

/-- C4: for a memory-enabled session whose entry count is within the 10000
copy limit, save_session_memory(name) then clear_all_memory() then
load_session_memory(name) both succeed and restore into the current
session exactly the original entries' contents (as a multiset — order may
differ); the load lookup picks the most recently created backup session.
The hypotheses are the runtime invariants: the current session row exists,
session timestamps are strictly below the present clock (datetime.now() is
strictly increasing), and the freshly minted backup id is unused. -/
theorem save_load_round_trip (env : EmbEnv) (st : SysState) (name : Str)
    (hEn : st.memoryEnabled = true)
    (hSess : session_exists st.db st.session_id = true)
    (hClock : ∀ s ∈ st.db.sessions, s.created_at < st.db.clock)
    (hFresh : session_exists st.db (backupSessionId st name) = false)
    (hNoBk : ∀ e ∈ st.db.entries, e.session_id ≠ backupSessionId st name)
    (hN : (st.db.entries.filter
      (fun e => (e.session_id = st.session_id : Bool))).length ≤ 10000) :
    (save_session_memory st name).1 = true ∧
    (load_session_memory env (clear_all_memory (save_session_memory st name).2)
      name).1 = true ∧
    (((load_session_memory env (clear_all_memory (save_session_memory st name).2)
          name).2.db.entries.filter
        (fun e => (e.session_id = st.session_id : Bool))).map
        (fun e => e.content)).Perm
      ((st.db.entries.filter (fun e => (e.session_id = st.session_id : Bool))).map
        (fun e => e.content)) := by
  have hsv := save_effect st name hFresh hNoBk hN
  have hsid1 : (save_session_memory st name).2.session_id = st.session_id := hsv.2.1
  have hen1 : (save_session_memory st name).2.memoryEnabled = true := by
    rw [hsv.2.2.1]
    exact hEn
  have hsessions1 := hsv.2.2.2.2.2.1
  have hbkperm := hsv.2.2.2.2.2.2.1
  have hother := hsv.2.2.2.2.2.2.2
  have hbkne : backupSessionId st name ≠ st.session_id := by
    intro hcontra
    rw [hcontra] at hFresh
    rw [hFresh] at hSess
    exact Bool.false_ne_true hSess
  have hclr := clear_all_memory_effect (save_session_memory st name).2
  have hsid2 : (clear_all_memory (save_session_memory st name).2).session_id
      = st.session_id := by
    rw [hclr.1, hsid1]
  have hen2 : (clear_all_memory (save_session_memory st name).2).memoryEnabled
      = true := by
    rw [hclr.2.2.1]
    exact hen1
  have hsessions2 : (clear_all_memory (save_session_memory st name).2).db.sessions
      = st.db.sessions ++ [savedSessionRow st name] := by
    rw [hclr.2.2.2.2.1, hsessions1]
  have hentries2 : (clear_all_memory (save_session_memory st name).2).db.entries
      = (save_session_memory st name).2.db.entries.filter
          (fun e => !(e.session_id = st.session_id : Bool)) := by
    rw [hclr.2.2.2.2.2.2, hsid1]
  have hlookup : load_lookup
      (clear_all_memory (save_session_memory st name).2).db name
      = some (savedSessionRow st name) := by
    apply load_lookup_finds
    · rw [hsessions2]
      simp
    · exact likeMatch_backup_pattern name _
    · intro y hy hne
      rw [hsessions2] at hy
      rcases List.mem_append.mp hy with hy | hy
      · have := hClock y hy
        show y.created_at < (savedSessionRow st name).created_at
        unfold savedSessionRow
        simpa using this
      · simp at hy
        exact absurd hy hne
  -- the backup session's rows survive the clears
  have hbkview2 : (clear_all_memory (save_session_memory st name).2).db.entries.filter
      (fun e => (e.session_id = backupSessionId st name : Bool))
      = (save_session_memory st name).2.db.entries.filter
          (fun e => (e.session_id = backupSessionId st name : Bool)) := by
    rw [hentries2]
    exact filter_after_delete (backupSessionId st name) st.session_id _ hbkne
  -- effects of the clear performed inside load_session_memory
  have hclr3 := clear_all_memory_effect (clear_all_memory (save_session_memory st name).2)
  have hsid3 : (clear_all_memory (clear_all_memory (save_session_memory st name).2)).session_id
      = st.session_id := by
    rw [hclr3.1, hsid2]
  have hen3 : (clear_all_memory (clear_all_memory (save_session_memory st name).2)).memoryEnabled
      = true := by
    rw [hclr3.2.2.1]
    exact hen2
  have hentries3 : (clear_all_memory (clear_all_memory (save_session_memory st name).2)).db.entries
      = (clear_all_memory (save_session_memory st name).2).db.entries.filter
          (fun e => !(e.session_id = st.session_id : Bool)) := by
    rw [hclr3.2.2.2.2.2.2, hsid2]
  have hbkview3 : (clear_all_memory (clear_all_memory (save_session_memory st name).2)).db.entries.filter
      (fun e => (e.session_id = backupSessionId st name : Bool))
      = (save_session_memory st name).2.db.entries.filter
          (fun e => (e.session_id = backupSessionId st name : Bool)) := by
    rw [hentries3]
    rw [filter_after_delete (backupSessionId st name) st.session_id _ hbkne]
    exact hbkview2
  have hcurview3 : (clear_all_memory (clear_all_memory (save_session_memory st name).2)).db.entries.filter
      (fun e => (e.session_id = st.session_id : Bool)) = [] := by
    rw [hentries3]
    exact filter_deleted_empty st.session_id _
  have hexists3 : session_exists
      (clear_all_memory (clear_all_memory (save_session_memory st name).2)).db
      (clear_all_memory (clear_all_memory (save_session_memory st name).2)).session_id
      = true := by
    unfold session_exists
    rw [hclr3.2.2.2.2.1, hsessions2, hsid3]
    unfold session_exists at hSess
    rw [List.any_append]
    rw [hSess]
    rfl
  -- the copied entries read back from the backup session
  have hbklen : ((save_session_memory st name).2.db.entries.filter
      (fun e => (e.session_id = backupSessionId st name : Bool))).length ≤ 10000 := by
    have hlen := hbkperm.length_eq
    simp only [List.length_map] at hlen
    omega
  have hbklen3 : ((clear_all_memory (clear_all_memory (save_session_memory st name).2)).db.entries.filter
      (fun e => (e.session_id = backupSessionId st name : Bool))).length ≤ 10000 := by
    rw [hbkview3]
    exact hbklen
  have hbkperm3 := get_memory_entries_perm
    (clear_all_memory (clear_all_memory (save_session_memory st name).2)).db
    (backupSessionId st name) hbklen3
  have hfold := foldReAdd_view env
    (get_memory_entries
      (clear_all_memory (clear_all_memory (save_session_memory st name).2)).db
      (backupSessionId st name) 10000 0)
    (clear_all_memory (clear_all_memory (save_session_memory st name).2))
    hen3 hexists3
  have hload : load_session_memory env
      (clear_all_memory (save_session_memory st name).2) name
      = (true,
         (get_memory_entries
           (clear_all_memory (clear_all_memory (save_session_memory st name).2)).db
           (backupSessionId st name) 10000 0).foldl
           (fun s e => (add_to_session_memory env s e.content e.content_type
             e.tags e.importance e.metadata).2)
           (clear_all_memory (clear_all_memory (save_session_memory st name).2))) := by
    unfold load_session_memory
    rw [hlookup]
    rfl
  refine ⟨hsv.1, ?_, ?_⟩
  · rw [hload]
  · rw [hload]
    have hview := hfold.2.2.2
    rw [hsid3] at hview
    rw [hview, hcurview3]
    simp only [List.map_nil, List.nil_append]
    have hchain1 := hbkperm3.map (fun e => e.content)
    have hchain2 : ((save_session_memory st name).2.db.entries.filter
        (fun e => (e.session_id = backupSessionId st name : Bool))).map
        (fun e => e.content)
        = ((clear_all_memory (clear_all_memory (save_session_memory st name).2)).db.entries.filter
            (fun e => (e.session_id = backupSessionId st name : Bool))).map
            (fun e => e.content) := by
      rw [hbkview3]
    exact hchain1.trans (by rw [← hchain2]; exact hbkperm)

theorem save_load_round_trip_witness :
    (stSession.memoryEnabled = true) ∧
    (save_session_memory stSession "x".data).1 = true ∧
    (load_session_memory envNone
      (clear_all_memory (save_session_memory stSession "x".data).2) "x".data).1
      = true ∧
    (((load_session_memory envNone
          (clear_all_memory (save_session_memory stSession "x".data).2)
          "x".data).2.db.entries.filter
        (fun e => (e.session_id = stSession.session_id : Bool))).map
        (fun e => e.content)).Perm
      ((stSession.db.entries.filter
        (fun e => (e.session_id = stSession.session_id : Bool))).map
        (fun e => e.content)) := by
  have h := save_load_round_trip envNone stSession "x".data rfl (by decide)
    (by decide) (by decide) (by decide) (by decide)
  exact ⟨rfl, h.1, h.2.1, h.2.2⟩
